import Mathlib

/-
  Verification of the sequential semantics of the Peloton Bw-tree index
  (src/backend/index/bwtree.h and src/backend/index/bwtree.cpp).

  The embedding models a single-threaded execution: every compare-and-swap on a
  mapping-table slot succeeds, so the retry loops of the source run their body
  exactly once.  Machine pointers become values of an inductive `Node` type in
  which a delta record carries its base node as a subterm; the mapping table is
  a function from page identifiers to optional nodes.  Undefined behaviour of
  the source (out-of-bounds mapping-table reads, null dereferences, casts of an
  inner node to a leaf) and fuel exhaustion of unbounded loops are modelled by
  returning `none`.

  Keys are natural numbers compared through an explicit comparator parameter
  `lt`, mirroring the `KeyComparator` member `m_comparator`; the
  `KeyEqualityChecker` template parameter is mirrored by an `eqc` argument on
  the public operations, which - exactly as in the source - never use it.
-/

namespace BwTree

/-- Page identifier; `typedef size_t PID` in the source. -/
abbrev PID := Nat

/-- Reserved identifier denoting no page (`NULL_PID = 0`). -/
def NULL_PID : PID := 0

/-- Record locator, the `ItemPointer` value type: a block and an offset.
Source compares values field by field (`.block` and `.offset`). -/
structure ItemPointer where
  block : Nat
  offset : Nat
deriving DecidableEq

/-- `ValueList`: the per-key vector of values (bwtree.h lines 71-118). -/
structure ValueList where
  value_list : List ItemPointer
deriving DecidableEq

/-- `ValueList::InsertValue`: push the value at the back. -/
def ValueList.InsertValue (l : ValueList) (v : ItemPointer) : ValueList :=
  ⟨l.value_list ++ [v]⟩

/-- `ValueList::FindValue`: index of the first element whose block and offset
both match; the source returns -1 when absent, modelled as `none`. -/
def ValueList.FindValue (l : ValueList) (v : ItemPointer) : Option Nat :=
  l.value_list.findIdx? (fun w => w.block == v.block && w.offset == v.offset)

/-- `ValueList::RemoveValue`: erase the first matching element, if any. -/
def ValueList.RemoveValue (l : ValueList) (v : ItemPointer) : ValueList :=
  match l.FindValue v with
  | none => l
  | some i => ⟨l.value_list.eraseIdx i⟩

/-- `ValueList::GetSize`. -/
def ValueList.GetSize (l : ValueList) : Nat := l.value_list.length

/-- The common node header (`struct Node`): level, logical key count and
parent hint.  The `node_type` discriminant is carried by the constructor of
the `Node` inductive below. -/
structure Meta where
  level : Nat
  slot_use : Nat
  parent : PID
deriving DecidableEq

/-- In-memory nodes: the two base kinds and the five delta kinds of the source
`NodeType` enum.  A delta holds its base page as a subterm, replacing the raw
`base` pointer of `DeltaNode`.  A leaf stores its `slot_key` and `slot_data`
arrays as a single list of pairs; an inner stores `child_pid[0]` separately and
the remaining `slot_key[i], child_pid[i+1]` pairs as a list.  The `inext` field
of an inner mirrors the sibling pointer used by the inner split (the source
calls `SetNext` and `GetNext` on inner nodes although the shipped header draft
omits the member). -/
inductive Node where
  | leaf_node (hdr : Meta) (prev_leaf next_leaf : PID) (slot : List (Nat × ValueList))
  | inner_node (hdr : Meta) (inext : PID) (child0 : PID) (slot : List (Nat × PID))
  | insert_node (hdr : Meta) (chain_length : Nat) (insert_key : Nat)
      (insert_value : ItemPointer) (base : Node)
  | delete_node (hdr : Meta) (chain_length : Nat) (delete_key : Nat)
      (has_value : Bool) (delete_value : ItemPointer) (base : Node)
  | update_node (hdr : Meta) (chain_length : Nat) (update_key : Nat)
      (update_value : ItemPointer) (base : Node)
  | split_node (hdr : Meta) (chain_length : Nat) (split_key : Nat)
      (side : PID) (base : Node)
  | separator_node (hdr : Meta) (chain_length : Nat) (left right : Nat)
      (child : PID) (right_most : Bool) (base : Node)
deriving DecidableEq

namespace Node

/-- The node header shared by every kind. -/
def hdr : Node → Meta
  | leaf_node m _ _ _ => m
  | inner_node m _ _ _ => m
  | insert_node m _ _ _ _ => m
  | delete_node m _ _ _ _ _ => m
  | update_node m _ _ _ _ => m
  | split_node m _ _ _ _ => m
  | separator_node m _ _ _ _ _ _ => m

/-- `Node::GetLevel`. -/
def GetLevel (n : Node) : Nat := n.hdr.level

/-- `Node::GetSize`, returning `slot_use`. -/
def GetSize (n : Node) : Nat := n.hdr.slot_use

/-- `Node::GetParent`. -/
def GetParent (n : Node) : PID := n.hdr.parent

/-- `Node::IsLeaf`: true when `level == 0`. -/
def IsLeaf (n : Node) : Bool := n.hdr.level == 0

/-- `Node::IsDelta`: any kind other than a base leaf or inner page. -/
def IsDelta : Node → Bool
  | leaf_node _ _ _ _ => false
  | inner_node _ _ _ _ => false
  | _ => true

/-- `DeltaNode::GetLength`; base pages have no chain, modelled as 0
(the source only reads the length behind an `IsDelta` guard). -/
def GetLength : Node → Nat
  | insert_node _ c _ _ _ => c
  | delete_node _ c _ _ _ _ => c
  | update_node _ c _ _ _ => c
  | split_node _ c _ _ _ => c
  | separator_node _ c _ _ _ _ _ => c
  | _ => 0

/-- `LeafNode::GetNext`; reading the field through a cast of a non-leaf base
is undefined behaviour in the source, modelled as `NULL_PID` (unreached by the
executions proved about below). -/
def GetNextLeaf : Node → PID
  | leaf_node _ _ nl _ => nl
  | _ => NULL_PID

end Node

/-- `GetBaseNode`: strip every delta of a chain. -/
def GetBaseNode : Node → Node
  | .insert_node _ _ _ _ b => GetBaseNode b
  | .delete_node _ _ _ _ _ b => GetBaseNode b
  | .update_node _ _ _ _ b => GetBaseNode b
  | .split_node _ _ _ _ b => GetBaseNode b
  | .separator_node _ _ _ _ _ _ b => GetBaseNode b
  | n => n

section Comparator

variable (lt : Nat → Nat → Bool)

/-- `KeyLess`: the comparator itself. -/
def KeyLess (a b : Nat) : Bool := lt a b

/-- `KeyLessEqual`. -/
def KeyLessEqual (a b : Nat) : Bool := !(lt b a)

/-- `KeyGreater`. -/
def KeyGreater (a b : Nat) : Bool := lt b a

/-- `KeyGreaterEqual`. -/
def KeyGreaterEqual (a b : Nat) : Bool := !(lt a b)

/-- `KeyEqual`: derived from the comparator alone; the separate
`KeyEqualityChecker` template parameter is never consulted. -/
def KeyEqual (a b : Nat) : Bool := !(lt a b) && !(lt b a)

/-- `VectorContainsData`: membership of a key-value pair, comparing the key by
`KeyEqual` and the value by its block and offset fields. -/
def VectorContainsData (data : List (Nat × ItemPointer)) (p : Nat × ItemPointer) : Bool :=
  data.any (fun q => KeyEqual lt p.1 q.1 && (p.2.block == q.2.block) && (p.2.offset == q.2.offset))

/-- `KeyVectorContainsKey`. -/
def KeyVectorContainsKey (keys : List Nat) (k : Nat) : Bool :=
  keys.any (fun q => KeyEqual lt k q)

/-- `VectorContainsKey2`: does the folded data vector contain an entry for the
key (regardless of how many values that entry holds). -/
def VectorContainsKey2 (data : List (Nat × ValueList)) (k : Nat) : Bool :=
  data.any (fun q => KeyEqual lt k q.1)

end Comparator

/-- Default slot used when reading a leaf slot array out of written range,
mirroring indeterminate array contents. -/
def dfltEntry : Nat × ValueList := (0, ⟨[]⟩)

/-- Read the first `slot_use` slots of a leaf slot array, as the slot loops of
the source do (`for slot < GetSize()`). -/
def readLeafSlots (slot_use : Nat) (slot : List (Nat × ValueList)) : List (Nat × ValueList) :=
  (List.range slot_use).map (fun i => slot.getD i dfltEntry)

/-- Accumulator of the chain walk in `GetAllData` (bwtree.h lines 879-884). -/
structure FoldAcc where
  inserted : List (Nat × ItemPointer)
  deleted : List (Nat × ItemPointer)
  deleted_key : List Nat
  has_split : Bool
  split_key : Nat
deriving DecidableEq

section Fold

variable (lt : Nat → Nat → Bool)

/-- The head-to-base walk of `GetAllData`: collect insert and update payloads
not shadowed by a later delete or by the first split, and the delete sets.
Returns the accumulator together with the base page. -/
def chainFold : Node → FoldAcc → FoldAcc × Node
  | .insert_node _ _ k v base, acc =>
    let keep := (!acc.has_split || KeyLess lt k acc.split_key)
        && !(VectorContainsData lt acc.deleted (k, v))
        && !(KeyVectorContainsKey lt acc.deleted_key k)
    chainFold base { acc with inserted := if keep then acc.inserted ++ [(k, v)] else acc.inserted }
  | .delete_node _ _ k hv v base, acc =>
    chainFold base (if hv then { acc with deleted := acc.deleted ++ [(k, v)] }
      else { acc with deleted_key := acc.deleted_key ++ [k] })
  | .update_node _ _ k v base, acc =>
    let keep := (!acc.has_split || KeyLess lt k acc.split_key)
        && !(VectorContainsData lt acc.deleted (k, v))
        && !(KeyVectorContainsKey lt acc.deleted_key k)
    chainFold base { acc with inserted := if keep then acc.inserted ++ [(k, v)] else acc.inserted }
  | .split_node _ _ sk _ base, acc =>
    chainFold base (if acc.has_split then acc else { acc with split_key := sk, has_split := true })
  | .separator_node _ _ _ _ _ _ base, acc => chainFold base acc
  | n, acc => (acc, n)

/-- The merge step of `GetAllData` for one collected insert pair: append the
value to the first entry with an equal key (the inner loop breaks on the first
match), or push a fresh singleton entry at the back. -/
def mergeInsert (p : Nat × ItemPointer) : List (Nat × ValueList) → List (Nat × ValueList)
  | [] => [(p.1, ⟨[p.2]⟩)]
  | e :: rest =>
    if KeyEqual lt p.1 e.1 then (e.1, e.2.InsertValue p.2) :: rest
    else e :: mergeInsert p rest

/-- The delete application step of `GetAllData`: for each deleted pair, remove
the value from every entry with an equal key (the source inner loop has no
break; folded keys are pairwise distinct anyway). -/
def applyDeleted (res : List (Nat × ValueList)) (deleted : List (Nat × ItemPointer)) :
    List (Nat × ValueList) :=
  deleted.foldl
    (fun r d => r.map (fun e => if KeyEqual lt d.1 e.1 then (e.1, e.2.RemoveValue d.2) else e)) res

/-- One comparison-and-swap of the final exchange sort of `GetAllData`:
swap entries `i` and `j` when the key at `i` is greater. -/
def swapIfGreater (res : List (Nat × ValueList)) (i j : Nat) : List (Nat × ValueList) :=
  if KeyGreater lt (res.getD i dfltEntry).1 (res.getD j dfltEntry).1 then
    (res.set i (res.getD j dfltEntry)).set j (res.getD i dfltEntry)
  else res

/-- Inner loop of the exchange sort: `for j = i+1; j < size; j++`, with `cnt`
remaining iterations. -/
def innerSortLoop (res : List (Nat × ValueList)) (i j cnt : Nat) : List (Nat × ValueList) :=
  match cnt with
  | 0 => res
  | c + 1 => innerSortLoop (swapIfGreater lt res i j) i (j + 1) c

/-- Outer loop of the exchange sort: `for i = 0; i < size - 1; i++`.  The list
length is invariant under swaps, so the per-pass iteration count computed here
agrees with the dynamic bound of the source loops. -/
def outerSortLoop (res : List (Nat × ValueList)) (i cnt : Nat) : List (Nat × ValueList) :=
  match cnt with
  | 0 => res
  | c + 1 => outerSortLoop (innerSortLoop lt res i (i + 1) (res.length - (i + 1))) (i + 1) c

/-- The in-place exchange sort closing `GetAllData` (bwtree.h lines 970-977). -/
def exchangeSort (res : List (Nat × ValueList)) : List (Nat × ValueList) :=
  outerSortLoop lt res 0 (res.length - 1)

/-- `BWTree::GetAllData`: fold a leaf delta chain into the effective sorted
vector of key and value-list pairs (bwtree.h lines 878-979).  A chain whose
base is not a leaf would be reinterpreted as one by the source cast; that
undefined behaviour is modelled by the empty vector and is unreached by the
executions treated here. -/
def GetAllData (n : Node) : List (Nat × ValueList) :=
  let w := chainFold lt n ⟨[], [], [], false, 0⟩
  let acc := w.1
  match w.2 with
  | .leaf_node m _ _ slot =>
    let res0 := (readLeafSlots m.slot_use slot).filter
      (fun e => (!acc.has_split || KeyLess lt e.1 acc.split_key)
        && !(KeyVectorContainsKey lt acc.deleted_key e.1))
    let res1 := applyDeleted lt res0 acc.deleted
    let res2 := acc.inserted.foldl (fun r p => mergeInsert lt p r) res1
    if res2.length == 0 then res2 else exchangeSort lt res2
  | _ => []

end Fold

section Routing

variable (lt : Nat → Nat → Bool)

/-- The linear search of the inner-base case of `FindNextPID`:
`lo = 0; while (lo < slot_use && KeyLess(slot_key[lo], key)) ++lo`, written
with the remaining iteration count `cnt = slot_use - lo` as the structural
argument. -/
def findLowerSlotGo (ks : List Nat) (k lo cnt : Nat) : Nat :=
  match cnt with
  | 0 => lo
  | c + 1 =>
    if KeyLess lt (ks.getD lo 0) k then findLowerSlotGo ks k (lo + 1) c else lo

/-- See `findLowerSlotGo`; the loop starts at `lo = 0`. -/
def findLowerSlot (ks : List Nat) (slot_use k : Nat) : Nat :=
  findLowerSlotGo lt ks k 0 slot_use

/-- `BWTree::FindNextPID` on a fetched chain head (bwtree.h lines 803-834):
the first separator delta whose interval claims the key yields its child;
otherwise the inner base is scanned for the first slot key not below the key.
A chain whose base is a leaf would be reinterpreted as an inner by the source
cast; modelled as `NULL_PID`, unreached here. -/
def FindNextPIDChain : Node → Nat → PID
  | .separator_node _ _ left right child rm base, k =>
    if KeyLessEqual lt left k && (rm || KeyLess lt k right) then child
    else FindNextPIDChain base k
  | .insert_node _ _ _ _ base, k => FindNextPIDChain base k
  | .delete_node _ _ _ _ _ base, k => FindNextPIDChain base k
  | .update_node _ _ _ _ base, k => FindNextPIDChain base k
  | .split_node _ _ _ _ base, k => FindNextPIDChain base k
  | .inner_node m _ child0 slot, k =>
    let lo := findLowerSlot lt (slot.map Prod.fst) m.slot_use k
    (child0 :: slot.map Prod.snd).getD lo NULL_PID
  | .leaf_node _ _ _ _, _ => NULL_PID

/-- The inner-base scan of `FindUpperKey`: find the first slot key above the
key and tighten the running upper bound with it, then break; written with the
remaining iteration count as the structural argument. -/
def upperFromSlotsGo (ks : List Nat) (k upper lo cnt : Nat) : Nat :=
  match cnt with
  | 0 => upper
  | c + 1 =>
    let sk := ks.getD lo 0
    if KeyLess lt k sk then
      (if KeyEqual lt k upper || KeyLess lt sk upper then sk else upper)
    else upperFromSlotsGo ks k upper (lo + 1) c

/-- See `upperFromSlotsGo`; the scan starts at `lo = 0`. -/
def upperFromSlots (ks : List Nat) (slot_use k upper : Nat) : Nat :=
  upperFromSlotsGo lt ks k upper 0 slot_use

/-- `BWTree::FindUpperKey` on a fetched chain head (bwtree.h lines 764-801):
the smallest key above `k` among separator left keys and inner slot keys,
starting from `upper = k` itself. -/
def FindUpperKeyChain : Node → Nat → Nat → Nat
  | .separator_node _ _ left _ _ _ base, k, upper =>
    FindUpperKeyChain base k
      (if KeyLess lt k left && (KeyEqual lt k upper || KeyLess lt left upper) then left else upper)
  | .insert_node _ _ _ _ base, k, upper => FindUpperKeyChain base k upper
  | .delete_node _ _ _ _ _ base, k, upper => FindUpperKeyChain base k upper
  | .update_node _ _ _ _ base, k, upper => FindUpperKeyChain base k upper
  | .split_node _ _ _ _ base, k, upper => FindUpperKeyChain base k upper
  | .inner_node m _ _ slot, k, upper => upperFromSlots lt (slot.map Prod.fst) m.slot_use k upper
  | .leaf_node _ _ _ _, _, upper => upper

/-- `BWTree::LeafContainsKey` (bwtree.h lines 836-869): walk the chain; an
insert delta with the key answers true, a delete delta with the key answers
false (for both delete kinds), otherwise scan the base leaf slots. -/
def LeafContainsKey : Node → Nat → Bool
  | .insert_node _ _ ik _ base, k =>
    if KeyEqual lt k ik then true else LeafContainsKey base k
  | .delete_node _ _ dk _ _ base, k =>
    if KeyEqual lt k dk then false else LeafContainsKey base k
  | .update_node _ _ _ _ base, k => LeafContainsKey base k
  | .split_node _ _ _ _ base, k => LeafContainsKey base k
  | .separator_node _ _ _ _ _ _ base, k => LeafContainsKey base k
  | .leaf_node m _ _ slot, k =>
    (readLeafSlots m.slot_use slot).any (fun e => KeyEqual lt k e.1)
  | .inner_node _ _ _ _, _ => false

/-- Modelled from the spec: the range check `isInRange` invoked by every
mutation path (bwtree.cpp lines 83, 173, 237 and 302) is absent from the
shipped sources.  Spec section 4.3 step 4 prescribes that the leaf claims the
key unless a Split delta `Split(k_split, side)` is observed with
`k >= k_split`, in which case the key has moved to the sibling. -/
def isInRange : Node → Nat → Bool
  | .split_node _ _ sk _ base, k =>
    if KeyGreaterEqual lt k sk then false else isInRange base k
  | .insert_node _ _ _ _ base, k => isInRange base k
  | .delete_node _ _ _ _ _ base, k => isInRange base k
  | .update_node _ _ _ _ base, k => isInRange base k
  | .separator_node _ _ _ _ _ _ base, k => isInRange base k
  | _, _ => true

end Routing

/-- The tree object: root, head and tail leaf pointers, the mapping table as a
function from PIDs to chain heads, and the PID allocation counter. -/
structure Tree where
  m_root : PID
  m_headleaf : PID
  m_tailleaf : PID
  table : PID → Option Node
  pid_counter : Nat

/-- `MappingTable::Get`. -/
def Tree.Get (t : Tree) (pid : PID) : Option Node := t.table pid

/-- A successful sequential `MappingTable::Update`: store the new head.  In
the single-threaded model every compare-and-swap succeeds, so the retry loops
around CAS sites in the source run exactly once. -/
def tableSet (t : Tree) (pid : PID) (n : Node) : Tree :=
  { t with table := fun p => if p = pid then some n else t.table p }

/-- A freshly initialized leaf base page (`AllocateLeaf`). -/
def emptyLeafNode : Node := .leaf_node ⟨0, 0, NULL_PID⟩ NULL_PID NULL_PID []

/-- A freshly initialized inner base page (`AllocateInner(level, child)`). -/
def newInnerNode (level : Nat) (child : PID) : Node :=
  .inner_node ⟨level, 0, NULL_PID⟩ NULL_PID child []

/-- A freshly constructed tree (the `BWTree` constructor): null root and leaf
pointers, an empty mapping table, PID counter at zero. -/
def freshTree : Tree :=
  { m_root := NULL_PID, m_headleaf := NULL_PID, m_tailleaf := NULL_PID,
    table := fun _ => none, pid_counter := 0 }

/-- The root bootstrap block repeated at the head of `InsertData`,
`UpdateData`, `DeleteKey` and `DeleteData`: when the root is null, allocate an
empty leaf under a fresh PID (`pid_counter++` then read, so the first PID is 1)
and publish it as root, head leaf and tail leaf. -/
def ensureRoot (t : Tree) : Tree :=
  if t.m_root = NULL_PID then
    let pid := t.pid_counter + 1
    { m_root := pid, m_headleaf := pid, m_tailleaf := pid,
      table := fun p => if p = pid then some emptyLeafNode else t.table p,
      pid_counter := pid }
  else t

section Traversal

variable (lt : Nat → Nat → Bool)

/-- The root-to-leaf descent loop shared by `GetLeafNodePID` and the mutation
paths: `while (!curr_node->IsLeaf()) curr_pid = FindNextPID(curr_pid, key)`.
A missing node at the next PID makes the next `IsLeaf` dereference undefined
behaviour; fuel exhaustion models non-termination. -/
def descendLoop (fuel : Nat) (t : Tree) (pid : PID) (n : Node) (k : Nat) :
    Option (PID × Node) :=
  if n.IsLeaf then some (pid, n) else
  match fuel with
  | 0 => none
  | f + 1 =>
    let pid2 := FindNextPIDChain lt n k
    match t.Get pid2 with
    | none => none
    | some n2 => descendLoop f t pid2 n2 k

/-- `BWTree::GetLeafNodePID` (bwtree.h lines 1030-1072).  When the root slot
is empty the source returns `(PID)(-1)`; its callers test `leaf_pid < 0`,
which is vacuously false for the unsigned PID type, and then index the mapping
table out of bounds - undefined behaviour, modelled as `none` here together
with the non-terminating descent. -/
def GetLeafNodePID (fuel : Nat) (t : Tree) (k : Nat) : Option PID :=
  match t.Get t.m_root with
  | none => none
  | some n => (descendLoop lt fuel t t.m_root n k).map Prod.fst

end Traversal

section Mutation

variable (lt : Nat → Nat → Bool)
variable (leaf_slot_max inner_slot_max : Nat)

/-- The chain-length bookkeeping performed before every delta install:
`base->IsDelta() ? base->GetLength() + 1 : 1`. -/
def deltaLen (n : Node) : Nat := if n.IsDelta then n.GetLength + 1 else 1

/-- The insert delta built by `InsertData` (bwtree.cpp lines 99-108): level
copied from the current head, chain length extended, and
`slot_use = (LeafContainsKey(head, key) ? 0 : 1) + head->GetSize()`. -/
def mkInsertDelta (n : Node) (k : Nat) (v : ItemPointer) : Node :=
  .insert_node ⟨n.GetLevel, (if LeafContainsKey lt n k then 0 else 1) + n.GetSize, NULL_PID⟩
    (deltaLen n) k v n

/-- The update delta built by `UpdateData` (bwtree.cpp lines 181-189):
`slot_use = head->GetSize()`, unchanged. -/
def mkUpdateDelta (n : Node) (k : Nat) (v : ItemPointer) : Node :=
  .update_node ⟨n.GetLevel, n.GetSize, NULL_PID⟩ (deltaLen n) k v n

/-- The key-only delete delta built by `DeleteKey` (bwtree.cpp lines 242-250):
`slot_use = head->GetSize()`, unchanged.  The value field is left
uninitialized by the source and modelled as the zero locator. -/
def mkDeleteKeyDelta (n : Node) (k : Nat) : Node :=
  .delete_node ⟨n.GetLevel, n.GetSize, NULL_PID⟩ (deltaLen n) k false ⟨0, 0⟩ n

/-- The key-and-value delete delta built by `DeleteData` (bwtree.cpp lines
307-316): `slot_use = head->GetSize()`, unchanged. -/
def mkDeleteDataDelta (n : Node) (k : Nat) (v : ItemPointer) : Node :=
  .delete_node ⟨n.GetLevel, n.GetSize, NULL_PID⟩ (deltaLen n) k true v n

/-- The split delta built by `SplitLeaf` and `SplitInner`: carries the split
key and the sibling PID; `slot_use` is set by the caller to the retained half
size. -/
def mkSplitDelta (n : Node) (sk : Nat) (side : PID) (half : Nat) : Node :=
  .split_node ⟨n.GetLevel, half, NULL_PID⟩ (deltaLen n) sk side n

/-- The separator delta built by the split paths (`AllocateSeparator` plus the
bookkeeping at bwtree.cpp lines 463-472): `slot_use = 1 + parent->GetSize()`,
and `right_most` exactly when the two boundary keys are `KeyEqual`. -/
def mkSeparatorDelta (parent : Node) (l r : Nat) (child : PID) : Node :=
  .separator_node ⟨parent.GetLevel, 1 + parent.GetSize, NULL_PID⟩ (deltaLen parent)
    l r child (KeyEqual lt l r) parent

/-- The sibling walk of `InsertData` (bwtree.cpp lines 82-94): while the leaf
does not claim the key, move to the next leaf of the base page; when the next
slot is empty, fall back to the previous PID (sequentially this retries the
same node, so fuel exhaustion models the resulting spin). -/
def insertSiblingWalk (fuel : Nat) (t : Tree) (pid : PID) (n : Node) (k : Nat) :
    Option (PID × Node) :=
  if isInRange lt n k then some (pid, n) else
  match fuel with
  | 0 => none
  | f + 1 =>
    let nxt := (GetBaseNode n).GetNextLeaf
    match t.Get nxt with
    | none => insertSiblingWalk f t pid n k
    | some n2 => insertSiblingWalk f t nxt n2 k

/-- The sibling walk of `UpdateData`, `DeleteKey` and `DeleteData` (bwtree.cpp
lines 172-176, 236-240, 301-305): as for insert but without the null-slot
fallback, so a missing sibling is undefined behaviour. -/
def mutateSiblingWalk (fuel : Nat) (t : Tree) (pid : PID) (n : Node) (k : Nat) :
    Option (PID × Node) :=
  if isInRange lt n k then some (pid, n) else
  match fuel with
  | 0 => none
  | f + 1 =>
    let nxt := (GetBaseNode n).GetNextLeaf
    match t.Get nxt with
    | none => none
    | some n2 => mutateSiblingWalk f t nxt n2 k

/-- Write the parent hint of the base page under a chain
(`GetBaseNode(...)->SetParent(p)` through the shared pointer). -/
def setBaseParent : Node → PID → Node
  | .insert_node m c k v b, p => .insert_node m c k v (setBaseParent b p)
  | .delete_node m c k hv v b, p => .delete_node m c k hv v (setBaseParent b p)
  | .update_node m c k v b, p => .update_node m c k v (setBaseParent b p)
  | .split_node m c sk s b, p => .split_node m c sk s (setBaseParent b p)
  | .separator_node m c l r ch rm b, p => .separator_node m c l r ch rm (setBaseParent b p)
  | .leaf_node m pl nl slot, p => .leaf_node ⟨m.level, m.slot_use, p⟩ pl nl slot
  | .inner_node m inext c0 slot, p => .inner_node ⟨m.level, m.slot_use, p⟩ inext c0 slot

/-- Write the next-sibling pointer of the base page under a chain
(`SetNext` on the base leaf during a leaf split, or on the base inner during
an inner split). -/
def setBaseNext : Node → PID → Node
  | .insert_node m c k v b, p => .insert_node m c k v (setBaseNext b p)
  | .delete_node m c k hv v b, p => .delete_node m c k hv v (setBaseNext b p)
  | .update_node m c k v b, p => .update_node m c k v (setBaseNext b p)
  | .split_node m c sk s b, p => .split_node m c sk s (setBaseNext b p)
  | .separator_node m c l r ch rm b, p => .separator_node m c l r ch rm (setBaseNext b p)
  | .leaf_node m pl _ slot, p => .leaf_node m pl p slot
  | .inner_node m _ c0 slot, p => .inner_node m p c0 slot

/-- Write the previous-sibling pointer of the base leaf under a chain
(`former_next_leaf->SetPrev(...)` during a leaf split). -/
def setBasePrev : Node → PID → Node
  | .insert_node m c k v b, p => .insert_node m c k v (setBasePrev b p)
  | .delete_node m c k hv v b, p => .delete_node m c k hv v (setBasePrev b p)
  | .update_node m c k v b, p => .update_node m c k v (setBasePrev b p)
  | .split_node m c sk s b, p => .split_node m c sk s (setBasePrev b p)
  | .separator_node m c l r ch rm b, p => .separator_node m c l r ch rm (setBasePrev b p)
  | .leaf_node m _ nl slot, p => .leaf_node m p nl slot
  | .inner_node m inext c0 slot, _ => .inner_node m inext c0 slot

/-- Modelled from the spec: `GetAllPointer`, the inner analogue of the leaf
fold invoked by `SplitInner` (bwtree.cpp line 548), is absent from the shipped
sources.  Per spec section 4.6, separator deltas contribute their child under
their left key, a split delta truncates the routing list at its split key, and
the inner base contributes `child_pid[0]` (under a low sentinel key) together
with its key and child slots, the whole kept in ascending key order. -/
def insertPtrSorted (p : Nat × PID) : List (Nat × PID) → List (Nat × PID)
  | [] => [p]
  | e :: rest => if lt p.1 e.1 then p :: e :: rest else e :: insertPtrSorted p rest

/-- Modelled from the spec: chain walk of `GetAllPointer`, collecting
separator entries in head-to-base order and the first split key. -/
def gatherPointerDeltas : Node → List (Nat × PID) → Option Nat →
    (List (Nat × PID) × Option Nat × Node)
  | .separator_node _ _ left _ child _ base, seps, sk =>
    gatherPointerDeltas base (seps ++ [(left, child)]) sk
  | .split_node _ _ spk _ base, seps, sk =>
    gatherPointerDeltas base seps (if sk.isSome then sk else some spk)
  | .insert_node _ _ _ _ base, seps, sk => gatherPointerDeltas base seps sk
  | .delete_node _ _ _ _ _ base, seps, sk => gatherPointerDeltas base seps sk
  | .update_node _ _ _ _ base, seps, sk => gatherPointerDeltas base seps sk
  | n, seps, sk => (seps, sk, n)

/-- Modelled from the spec: `GetAllPointer` itself; see `gatherPointerDeltas`. -/
def GetAllPointer (n : Node) : List (Nat × PID) :=
  let w := gatherPointerDeltas n [] none
  match w.2.2 with
  | .inner_node m _ child0 slot =>
    let base0 := (0, child0) :: (List.range m.slot_use).map (fun i => slot.getD i (0, NULL_PID))
    let merged := w.1.foldl (fun r p => insertPtrSorted lt p r) base0
    match w.2.1 with
    | none => merged
    | some sk => merged.filter (fun e => !(lt sk e.1) || e.1 == 0)
  | _ => []

/-- `BWTree::SplitInner` (bwtree.cpp lines 498-636), sequential model.  Fuel
bounds the recursive separator cascade.  The routing fold `GetAllPointer` and
the inner sibling pointer are modelled from the spec (see `GetAllPointer`). -/
def SplitInner (fuel : Nat) (t0 : Tree) (pid : PID) : Option Tree :=
  match fuel with
  | 0 => none
  | fuelLess + 1 =>
    -- root promotion
    let promote : Option Tree :=
      if t0.m_root = pid then
        match t0.Get pid with
        | none => none
        | some n0 =>
          let new_root := t0.pid_counter + 1
          let t1 := tableSet { t0 with pid_counter := new_root } new_root
            (newInnerNode ((GetBaseNode n0).GetLevel + 1) pid)
          let t2 := tableSet t1 pid (setBaseParent n0 new_root)
          some { t2 with m_root := new_root }
      else some t0
    match promote with
    | none => none
    | some t =>
      match t.Get pid with
      | none => none
      | some n =>
        if !(n.GetSize == inner_slot_max) then some t else
        let base := GetBaseNode n
        let parent_pid := base.GetParent
        let former_next :=
          match base with
          | .inner_node _ inext _ _ => inext
          | _ => NULL_PID
        let buffer := GetAllPointer lt n
        let num_key := buffer.length
        let pos := num_key / 2
        let split_key := (buffer.getD pos (0, NULL_PID)).1
        let next_inner_pid := t.pid_counter + 1
        let next_inner : Node :=
          .inner_node ⟨n.GetLevel, num_key - (pos + 1), parent_pid⟩ former_next
            (buffer.getD pos (0, NULL_PID)).2 (buffer.drop (pos + 1))
        let t1 := tableSet { t with pid_counter := next_inner_pid } next_inner_pid next_inner
        let split_delta := mkSplitDelta n split_key next_inner_pid (num_key / 2 - 1)
        let t2 := tableSet t1 pid split_delta
        let t3 := tableSet t2 pid (setBaseNext split_delta next_inner_pid)
        -- reparent the children moved to the new sibling
        let children := ((buffer.getD pos (0, NULL_PID)).2 :: (buffer.drop (pos + 1)).map Prod.snd)
        let t4 := children.foldl
          (fun acc c =>
            match acc with
            | none => none
            | some tr =>
              match tr.Get c with
              | none => none
              | some cn => some (tableSet tr c (setBaseParent cn next_inner_pid)))
          (some t3)
        match t4 with
        | none => none
        | some t5 =>
          match t5.Get parent_pid with
          | none => none
          | some parent =>
            let right_key := FindUpperKeyChain lt parent split_key split_key
            let sep := mkSeparatorDelta lt parent split_key right_key next_inner_pid
            let t6 := tableSet t5 parent_pid sep
            if sep.GetSize == inner_slot_max then SplitInner fuelLess t6 parent_pid
            else some t6

/-- `BWTree::SplitLeaf` (bwtree.cpp lines 329-494), sequential model: promote
the root when the splitting page is the root, fold the chain, bisect at
`size / 2`, materialize the upper half into a fresh sibling leaf, install the
split delta, rewire the sibling pointers, then install the separator at the
parent and cascade into `SplitInner` when the parent fills up.  The fullness
tests `IsLeafFull` and `IsInnerFull` are absent from the shipped header and
modelled from the spec as `slot_use == LEAF_SLOT_MAX` (respectively
`INNER_SLOT_MAX`), matching the header draft `Node::IsFull`. -/
def SplitLeaf (fuel : Nat) (t0 : Tree) (pid : PID) : Option Tree :=
  -- root promotion
  let promote : Option Tree :=
    if t0.m_root = pid then
      match t0.Get pid with
      | none => none
      | some n0 =>
        let new_root := t0.pid_counter + 1
        let t1 := tableSet { t0 with pid_counter := new_root } new_root (newInnerNode 1 pid)
        let t2 := tableSet t1 pid (setBaseParent n0 new_root)
        some { t2 with m_root := new_root }
    else some t0
  match promote with
  | none => none
  | some t =>
    match t.Get pid with
    | none => none
    | some n =>
      if !(n.GetSize == leaf_slot_max) then some t else
      match GetBaseNode n with
      | .leaf_node bm _ bnext _ =>
        let parent_pid := bm.parent
        let former_next_pid := bnext
        let former_ok : Option Unit :=
          if former_next_pid ≠ NULL_PID then
            match t.Get former_next_pid with
            | none => none
            | some _ => some ()
          else some ()
        match former_ok with
        | none => none
        | some _ =>
          let buffer := GetAllData lt n
          let pos := buffer.length / 2
          let split_key := (buffer.getD pos dfltEntry).1
          let next_leaf_pid := t.pid_counter + 1
          let next_leaf : Node :=
            .leaf_node ⟨0, buffer.length - buffer.length / 2, parent_pid⟩
              pid former_next_pid (buffer.drop (buffer.length / 2))
          let t1 := tableSet { t with pid_counter := next_leaf_pid } next_leaf_pid next_leaf
          let split_delta := mkSplitDelta n split_key next_leaf_pid (buffer.length / 2)
          let t2 := tableSet t1 pid split_delta
          let t3 := tableSet t2 pid (setBaseNext split_delta next_leaf_pid)
          let t4 :=
            if former_next_pid ≠ NULL_PID then
              match t3.Get former_next_pid with
              | none => t3
              | some fn => tableSet t3 former_next_pid (setBasePrev fn next_leaf_pid)
            else t3
          match t4.Get parent_pid with
          | none => none
          | some parent =>
            let right_key := FindUpperKeyChain lt parent split_key split_key
            let sep := mkSeparatorDelta lt parent split_key right_key next_leaf_pid
            let t5 := tableSet t4 parent_pid sep
            if sep.GetSize == inner_slot_max then SplitInner lt inner_slot_max fuel t5 parent_pid
            else some t5
      | _ => none

/-- `BWTree::InsertData` (bwtree.cpp lines 23-133), sequential model: ensure a
root, descend to the leaf, walk siblings until the leaf claims the key, build
the insert delta, install it, and split the leaf when the new visible
`slot_use` reaches `LEAF_SLOT_MAX` (the `IsLeafFull` test, modelled from the
spec).  The `eqc` argument mirrors the `KeyEqualityChecker` template
parameter, to which the source never refers. -/
def InsertData (fuel : Nat) (eqc : Nat → Nat → Bool) (t0 : Tree) (x : Nat × ItemPointer) :
    Option Tree :=
  let _ := eqc
  let t := ensureRoot t0
  match t.Get t.m_root with
  | none => none
  | some rn =>
    match descendLoop lt fuel t t.m_root rn x.1 with
    | none => none
    | some (pid0, n0) =>
      match insertSiblingWalk lt fuel t pid0 n0 x.1 with
      | none => none
      | some (pid, n) =>
        let insert_delta := mkInsertDelta lt n x.1 x.2
        let t2 := tableSet t pid insert_delta
        if insert_delta.GetSize == leaf_slot_max then
          SplitLeaf lt leaf_slot_max inner_slot_max fuel t2 pid
        else some t2

/-- `BWTree::UpdateData` (bwtree.cpp lines 137-197), sequential model: as for
insert, but the operation is abandoned (the loop breaks with no delta) when
the leaf chain does not contain the key, and the update delta keeps
`slot_use` unchanged.  No split check follows. -/
def UpdateData (fuel : Nat) (eqc : Nat → Nat → Bool) (t0 : Tree) (x : Nat × ItemPointer) :
    Option Tree :=
  let _ := eqc
  let t := ensureRoot t0
  match t.Get t.m_root with
  | none => none
  | some rn =>
    match descendLoop lt fuel t t.m_root rn x.1 with
    | none => none
    | some (pid0, n0) =>
      match mutateSiblingWalk lt fuel t pid0 n0 x.1 with
      | none => none
      | some (pid, n) =>
        if !(LeafContainsKey lt n x.1) then some t
        else some (tableSet t pid (mkUpdateDelta n x.1 x.2))

/-- `BWTree::DeleteKey` (bwtree.cpp lines 201-260), sequential model: install
a key-only delete delta at the target leaf; `slot_use` is kept unchanged. -/
def DeleteKey (fuel : Nat) (eqc : Nat → Nat → Bool) (t0 : Tree) (k : Nat) : Option Tree :=
  let _ := eqc
  let t := ensureRoot t0
  match t.Get t.m_root with
  | none => none
  | some rn =>
    match descendLoop lt fuel t t.m_root rn k with
    | none => none
    | some (pid0, n0) =>
      match mutateSiblingWalk lt fuel t pid0 n0 k with
      | none => none
      | some (pid, n) => some (tableSet t pid (mkDeleteKeyDelta n k))

/-- `BWTree::DeleteData` (bwtree.cpp lines 264-325), sequential model: install
a key-and-value delete delta at the target leaf; `slot_use` is kept
unchanged. -/
def DeleteData (fuel : Nat) (eqc : Nat → Nat → Bool) (t0 : Tree) (x : Nat × ItemPointer) :
    Option Tree :=
  let _ := eqc
  let t := ensureRoot t0
  match t.Get t.m_root with
  | none => none
  | some rn =>
    match descendLoop lt fuel t t.m_root rn x.1 with
    | none => none
    | some (pid0, n0) =>
      match mutateSiblingWalk lt fuel t pid0 n0 x.1 with
      | none => none
      | some (pid, n) => some (tableSet t pid (mkDeleteDataDelta n x.1 x.2))

end Mutation

section Reads

variable (lt : Nat → Nat → Bool)

/-- `BWTree::Exists` (bwtree.cpp lines 640-657): find the leaf (the unsigned
`leaf_pid < 0` error test of the source can never fire, so an error sentinel
flows into an out-of-bounds mapping-table read - `none` here), fold it and
test key membership of the folded vector. -/
def ExistsKey (fuel : Nat) (eqc : Nat → Nat → Bool) (t : Tree) (k : Nat) : Option Bool :=
  let _ := eqc
  match GetLeafNodePID lt fuel t k with
  | none => none
  | some pid =>
    match t.Get pid with
    | none => none
    | some leafn => some (VectorContainsKey2 lt (GetAllData lt leafn) k)

/-- `BWTree::Search` (bwtree.cpp lines 661-708): find the leaf (same dead
error test as `Exists`), fold it, and collect every value of every entry whose
key matches, in entry order then value-list order. -/
def Search (fuel : Nat) (eqc : Nat → Nat → Bool) (t : Tree) (k : Nat) :
    Option (List (Nat × ItemPointer)) :=
  let _ := eqc
  match GetLeafNodePID lt fuel t k with
  | none => none
  | some pid =>
    match t.Get pid with
    | none => none
    | some leafn =>
      some ((GetAllData lt leafn).foldl
        (fun r e => if KeyEqual lt k e.1 then r ++ e.2.value_list.map (fun v => (e.1, v)) else r)
        [])

/-- The leaf-chain walk of `SearchAll`, with fuel for the unbounded loop. -/
def searchAllLoop (fuel : Nat) (t : Tree) (pid : PID) (acc : List (Nat × ItemPointer)) :
    Option (List (Nat × ItemPointer)) :=
  if pid = NULL_PID then some acc else
  match fuel with
  | 0 => none
  | f + 1 =>
    match t.Get pid with
    | none => none
    | some leafn =>
      let acc2 := acc ++ (GetAllData lt leafn).foldl
        (fun r e => r ++ e.2.value_list.map (fun v => (e.1, v))) []
      searchAllLoop f t ((GetBaseNode leafn).GetNextLeaf) acc2

/-- `BWTree::SearchAll` (bwtree.cpp lines 713-751): walk the leaf chain from
`m_headleaf`, folding each leaf and flattening its entries in order. -/
def SearchAll (fuel : Nat) (eqc : Nat → Nat → Bool) (t : Tree) :
    Option (List (Nat × ItemPointer)) :=
  let _ := eqc
  searchAllLoop lt fuel t t.m_headleaf []

end Reads

/-- One public mutation of the index API. -/
inductive Op where
  | insert (k : Nat) (v : ItemPointer)
  | update (k : Nat) (v : ItemPointer)
  | delete_key (k : Nat)
  | delete_value (k : Nat) (v : ItemPointer)
deriving DecidableEq

section Runs

variable (lt : Nat → Nat → Bool)
variable (leaf_slot_max inner_slot_max : Nat)

/-- Dispatch one operation. -/
def applyOp (fuel : Nat) (eqc : Nat → Nat → Bool) (t : Tree) : Op → Option Tree
  | .insert k v => InsertData lt leaf_slot_max inner_slot_max fuel eqc t (k, v)
  | .update k v => UpdateData lt fuel eqc t (k, v)
  | .delete_key k => DeleteKey lt fuel eqc t k
  | .delete_value k v => DeleteData lt fuel eqc t (k, v)

/-- Run a sequence of operations against a freshly constructed tree. -/
def runOps (fuel : Nat) (eqc : Nat → Nat → Bool) (ops : List Op) : Option Tree :=
  ops.foldlM (fun t op => applyOp lt leaf_slot_max inner_slot_max fuel eqc t op) freshTree

/-- Run a sequence of operations, then `Search` (the lookup of the API). -/
def runSearch (fuel : Nat) (eqc : Nat → Nat → Bool) (ops : List Op) (k : Nat) :
    Option (List (Nat × ItemPointer)) :=
  match runOps lt leaf_slot_max inner_slot_max fuel eqc ops with
  | none => none
  | some t => Search lt fuel eqc t k

/-- Run a sequence of operations, then `Exists`. -/
def runExists (fuel : Nat) (eqc : Nat → Nat → Bool) (ops : List Op) (k : Nat) : Option Bool :=
  match runOps lt leaf_slot_max inner_slot_max fuel eqc ops with
  | none => none
  | some t => ExistsKey lt fuel eqc t k

/-- Run a sequence of operations, then `SearchAll` (the full scan). -/
def runSearchAll (fuel : Nat) (eqc : Nat → Nat → Bool) (ops : List Op) :
    Option (List (Nat × ItemPointer)) :=
  match runOps lt leaf_slot_max inner_slot_max fuel eqc ops with
  | none => none
  | some t => SearchAll lt fuel eqc t

end Runs

/-- The integer comparator of the concrete instantiations
(`IntsComparator`): strict less-than on natural keys. -/
def ltN (a b : Nat) : Bool := decide (a < b)

/-- An equality checker standing in for the `KeyEqualityChecker`
instantiations; the index never calls it. -/
def eqN (a b : Nat) : Bool := decide (a = b)

/-- The base node underneath a delta (`DeltaNode::GetBase`); `none` for a
base page. -/
def Node.GetBase : Node → Option Node
  | .insert_node _ _ _ _ b => some b
  | .delete_node _ _ _ _ _ b => some b
  | .update_node _ _ _ _ b => some b
  | .split_node _ _ _ _ b => some b
  | .separator_node _ _ _ _ _ _ b => some b
  | _ => none

/-- The visible `slot_use` of the chain head installed at a PID. -/
def headSlotUseAt (t : Tree) (pid : PID) : Option Nat := (t.Get pid).map Node.GetSize

/-- The `slot_use` of the node immediately underneath the chain head at a
PID. -/
def headBaseSlotUseAt (t : Tree) (pid : PID) : Option Nat :=
  ((t.Get pid).bind Node.GetBase).map Node.GetSize

/-- True when no separator delta of the chain claims the key, mirroring the
walk of `FindNextPID` reaching the inner base. -/
def noCoveringSep (lt : Nat → Nat → Bool) : Node → Nat → Bool
  | .separator_node _ _ left right _ rm base, k =>
    if KeyLessEqual lt left k && (rm || KeyLess lt k right) then false
    else noCoveringSep lt base k
  | .insert_node _ _ _ _ base, k => noCoveringSep lt base k
  | .delete_node _ _ _ _ _ base, k => noCoveringSep lt base k
  | .update_node _ _ _ _ base, k => noCoveringSep lt base k
  | .split_node _ _ _ _ base, k => noCoveringSep lt base k
  | _, _ => true

/-- Number of split deltas in one chain. -/
def chainSplitCount : Node → Nat
  | .split_node _ _ _ _ b => chainSplitCount b + 1
  | .insert_node _ _ _ _ b => chainSplitCount b
  | .delete_node _ _ _ _ _ b => chainSplitCount b
  | .update_node _ _ _ _ b => chainSplitCount b
  | .separator_node _ _ _ _ _ _ b => chainSplitCount b
  | _ => 0

/-- Number of split deltas installed anywhere in the mapping table; each leaf
or inner split installs exactly one, and nothing removes one (the sole
consolidation routine is never invoked), so this counts the splits that have
been performed. -/
def tableSplitCount (t : Tree) : Nat :=
  (List.range (t.pid_counter + 1)).foldl
    (fun a p => a + (match t.table p with | some n => chainSplitCount n | none => 0)) 0

/-- Whether the chain installed at a PID is a leaf page (possibly under
deltas). -/
def isLeafChain (n : Node) : Bool :=
  match GetBaseNode n with
  | .leaf_node _ _ _ _ => true
  | _ => false

/-- Number of leaf pages present in the mapping table. -/
def tableLeafCount (t : Tree) : Nat :=
  (List.range (t.pid_counter + 1)).foldl
    (fun a p => a + (match t.table p with | some n => if isLeafChain n then 1 else 0 | none => 0)) 0

/-- An insert-delta chain carrying the listed pairs, newest first, over a
base page: the shape of a leaf after consecutive inserts of distinct keys. -/
def insChain (ps : List (Nat × ItemPointer)) (base : Node) : Node :=
  match ps with
  | [] => base
  | p :: rest => .insert_node ⟨0, rest.length + 1, NULL_PID⟩ (rest.length + 1) p.1 p.2 (insChain rest base)

/-- A one-delta tree used to witness the amended exists-lookup relation: a
single insert delta of key 5 over an empty root leaf. -/
def c5WitnessTree : Tree :=
  { m_root := 1, m_headleaf := 1, m_tailleaf := 1,
    table := fun p => if p = 1 then
        some (.insert_node ⟨0, 1, NULL_PID⟩ 1 5 ⟨5, 5⟩ emptyLeafNode) else none,
    pid_counter := 1 }

/-- An inner base page with one separator key 5 between children 10 and 11,
used to exhibit the routing of a key equal to a slot key. -/
def c3Inner : Node := .inner_node ⟨1, 1, NULL_PID⟩ NULL_PID 10 [(5, 11)]

/-- The canonical state of a tree whose root is the single leaf page at PID 1
(the shape produced by the bootstrap block and kept until the first split). -/
def leafRootTree (n : Node) : Tree :=
  { m_root := 1, m_headleaf := 1, m_tailleaf := 1,
    table := fun p => if p = 1 then some n else none, pid_counter := 1 }

/-- The folded and sorted buffer `GetAllData` produces for an insert chain of
the listed pairs (newest first) over an empty leaf. -/
def c7Buffer (l : List (Nat × ItemPointer)) : List (Nat × ValueList) :=
  exchangeSort ltN (l.map (fun p => (p.1, ⟨[p.2]⟩)))

/-- The split key chosen by `SplitLeaf` for that chain: the key at position
`size / 2` of the folded sorted buffer. -/
def c7SplitKey (l : List (Nat × ItemPointer)) : Nat :=
  ((c7Buffer l).getD ((c7Buffer l).length / 2) dfltEntry).1

/-- The chain left at the splitting PID 1 after the split: the split delta
over the original insert chain, whose base leaf now has parent 2 and next
sibling 3. -/
def c7LeftChain (l : List (Nat × ItemPointer)) : Node :=
  setBaseNext
    (mkSplitDelta (insChain l (.leaf_node ⟨0, 0, 2⟩ NULL_PID NULL_PID []))
      (c7SplitKey l) 3 ((c7Buffer l).length / 2)) 3

/-- The sibling leaf materialized at PID 3 by the split: the upper half of
the buffer, parented at 2, with previous sibling 1. -/
def c7RightLeaf (l : List (Nat × ItemPointer)) : Node :=
  .leaf_node ⟨0, (c7Buffer l).length - (c7Buffer l).length / 2, 2⟩ 1 NULL_PID
    ((c7Buffer l).drop ((c7Buffer l).length / 2))

/-- The chain left at the new root PID 2 after the split: the separator delta
over the promoted inner page. -/
def c7SepChain (l : List (Nat × ItemPointer)) : Node :=
  mkSeparatorDelta ltN (newInnerNode 1 1) (c7SplitKey l)
    (FindUpperKeyChain ltN (newInnerNode 1 1) (c7SplitKey l) (c7SplitKey l)) 3

/-- The full tree state after inserting the pairs of `l.reverse` (so `l`
lists them newest first) into a fresh tree with `LEAF_SLOT_MAX = l.length`:
root 2, split chain at 1, sibling leaf at 3. -/
def c7FinalTree (l : List (Nat × ItemPointer)) : Tree :=
  { m_root := 2, m_headleaf := 1, m_tailleaf := 1,
    table := fun p =>
      if p = 3 then some (c7RightLeaf l)
      else if p = 2 then some (c7SepChain l)
      else if p = 1 then some (c7LeftChain l)
      else none,
    pid_counter := 3 }

/-- Concrete insert workload for the split-boundary property: eight pairs
with distinct keys, matching `LEAF_SLOT_MAX = 8`. -/
def c7ps : List (Nat × ItemPointer) :=
  [(1, ⟨1, 1⟩), (2, ⟨2, 2⟩), (3, ⟨3, 3⟩), (4, ⟨4, 4⟩),
   (5, ⟨5, 5⟩), (6, ⟨6, 6⟩), (7, ⟨7, 7⟩), (8, ⟨8, 8⟩)]

/-- Folded sizes of the chains at two PIDs of a tree: the observable sibling
occupancies after a split. -/
def foldedSizesAt (lt : Nat → Nat → Bool) (t : Tree) (p1 p2 : PID) :
    Option (Nat × Nat) :=
  match t.Get p1, t.Get p2 with
  | some n1, some n2 => some ((GetAllData lt n1).length, (GetAllData lt n2).length)
  | _, _ => none

/-- The intermediate state produced by the root-promotion block of
`SplitLeaf` on the single-leaf-root state: a fresh inner root at PID 2 over
the reparented chain at PID 1. -/
def c7PromotedTree (l : List (Nat × ItemPointer)) : Tree :=
  { m_root := 2, m_headleaf := 1, m_tailleaf := 1,
    table := fun p =>
      if p = 1 then some (setBaseParent (insChain l emptyLeafNode) 2)
      else if p = 2 then some (newInnerNode 1 1)
      else if p = 1 then some (insChain l emptyLeafNode) else none,
    pid_counter := 2 }

/- ------------------------------------------------------------------ -/
/- Theorems.                                                           -/
/- ------------------------------------------------------------------ -/

/-- The natural-number comparator is irreflexive. -/
theorem ltN_irrefl (a : Nat) : ltN a a = false := by simp [ltN]

/-- Key equality derived from the natural-number comparator coincides with
propositional equality. -/
theorem keyEqual_ltN (a b : Nat) : KeyEqual ltN a b = decide (a = b) := by
  rcases Nat.lt_trichotomy a b with h | h | h
  · simp [KeyEqual, ltN, h, Nat.ne_of_lt h]
  · subst h
    simp [KeyEqual, ltN]
  · simp [KeyEqual, ltN, h, (Nat.ne_of_lt h).symm, Nat.lt_asymm h]

/-- `applyOp` never consults the equality checker, mirroring that no member
of the source class refers to the `KeyEqualityChecker` template parameter. -/
theorem applyOp_eqc_irrelevant (lt : Nat → Nat → Bool) (M I fuel : Nat)
    (e1 e2 : Nat → Nat → Bool) (t : Tree) (op : Op) :
    applyOp lt M I fuel e1 t op = applyOp lt M I fuel e2 t op := by
  cases op <;> rfl

/-- The whole operation fold is independent of the equality checker. -/
theorem runOps_eqc_irrelevant (lt : Nat → Nat → Bool) (M I fuel : Nat)
    (e1 e2 : Nat → Nat → Bool) (ops : List Op) :
    runOps lt M I fuel e1 ops = runOps lt M I fuel e2 ops := by
  have aux : ∀ (ops : List Op) (t : Tree),
      List.foldlM (fun t op => applyOp lt M I fuel e1 t op) t ops
        = List.foldlM (fun t op => applyOp lt M I fuel e2 t op) t ops := by
    intro ops
    induction ops with
    | nil => intro t; rfl
    | cons op rest ih =>
      intro t
      simp only [List.foldlM_cons]
      rw [applyOp_eqc_irrelevant lt M I fuel e1 e2 t op]
      cases applyOp lt M I fuel e2 t op with
      | none => rfl
      | some t2 => simpa using ih t2
  exact aux ops freshTree

/-- C4.  On a freshly constructed tree, `lookup` and `exists` do not return
an empty result: `GetLeafNodePID` yields the error sentinel `(PID)(-1)`, the
callers guard with `leaf_pid < 0` which is identically false for the unsigned
PID type, and the subsequent mapping-table access at `(size_t)(-1)` is an
out-of-bounds read (modelled `none`).  Only `scan_all` returns the empty
list the claim promises for all three reads. -/
theorem c4_fresh_tree_reads :
    Search ltN 100 eqN freshTree 42 = none ∧
    ExistsKey ltN 100 eqN freshTree 42 = none ∧
    SearchAll ltN 100 eqN freshTree = some [] :=
  ⟨rfl, rfl, rfl⟩

/-- C2.  Evaluating the code on the claimed law: after
`insert(1,v); insert(1,v); delete_value(1,v)` the lookup of key 1 returns the
empty list - the single delete delta shadows both insert deltas in the
`GetAllData` walk - whereas the claim promises one remaining occurrence of
`v`. -/
theorem c2_duplicate_insert_delete_eval :
    runSearch ltN 8 8 100 eqN
      [.insert 1 ⟨0, 0⟩, .insert 1 ⟨0, 0⟩, .delete_value 1 ⟨0, 0⟩] 1 = some [] := by
  decide

/-- C9.  Evaluating the code on the duplicates scenario of the claim:
after `insert(5,V1); insert(5,V2); insert(5,V1); delete_value(5,V1)` the
lookup returns `[V2]` - the delete delta removed both occurrences of `V1`
from the chain - whereas the claim promises `[V2, V1]`. -/
theorem c9_first_occurrence_delete_eval :
    runSearch ltN 8 8 100 eqN
      [.insert 5 ⟨1, 1⟩, .insert 5 ⟨2, 2⟩, .insert 5 ⟨1, 1⟩, .delete_value 5 ⟨1, 1⟩] 5
      = some [(5, ⟨2, 2⟩)] := by
  decide

/-- C8.  Evaluating the code on the exactly-once law: of the two inserted
copies of `(1,v)` one was deleted, so one copy should survive into
`scan_all`, but the scan returns the empty list. -/
theorem c8_scan_all_exactly_once_eval :
    runSearchAll ltN 8 8 100 eqN
      [.insert 1 ⟨0, 0⟩, .insert 1 ⟨0, 0⟩, .delete_value 1 ⟨0, 0⟩] = some [] := by
  decide

/-- C1 counterexample.  `insert(10,A); insert(10,B); update(10,C)` followed
by `lookup(10)` returns `[C, B, A]`, not the single-element list `[C]` the
claim derives from overwrite semantics: the update delta is folded exactly
like an insert delta. -/
theorem c1_counterexample :
    runSearch ltN 8 8 100 eqN
        [.insert 10 ⟨1, 1⟩, .insert 10 ⟨2, 2⟩, .update 10 ⟨3, 3⟩] 10
      = some [(10, ⟨3, 3⟩), (10, ⟨2, 2⟩), (10, ⟨1, 1⟩)] ∧
    ¬ (runSearch ltN 8 8 100 eqN
        [.insert 10 ⟨1, 1⟩, .insert 10 ⟨2, 2⟩, .update 10 ⟨3, 3⟩] 10
      = some [(10, ⟨3, 3⟩)]) := by
  constructor
  · rfl
  · decide

/-- C6 counterexample.  After `insert(1,v)` the leaf head has
`slot_use = 1`; installing a key-only delete delta keeps the visible
`slot_use` at 1 (the source stores `curr_node->GetSize()` unchanged), while
the claim demands `base.slot_use - 1 = 0`. -/
theorem c6_counterexample :
    ((runOps ltN 8 8 100 eqN [.insert 1 ⟨0, 0⟩, .delete_key 1]).bind
        (fun t => headSlotUseAt t 1) = some 1) ∧
    ((runOps ltN 8 8 100 eqN [.insert 1 ⟨0, 0⟩, .delete_key 1]).bind
        (fun t => headBaseSlotUseAt t 1) = some 1) ∧
    ¬ ((runOps ltN 8 8 100 eqN [.insert 1 ⟨0, 0⟩, .delete_key 1]).bind
        (fun t => headSlotUseAt t 1)
      = ((runOps ltN 8 8 100 eqN [.insert 1 ⟨0, 0⟩, .delete_key 1]).bind
        (fun t => headBaseSlotUseAt t 1)).map (fun s => s - 1)) := by
  refine ⟨rfl, rfl, ?_⟩
  decide

set_option maxHeartbeats 4000000 in
/-- C5 counterexample.  Insert keys 1..8 (splitting the root leaf and
materializing keys 5..8 into the sibling base page), then delete the only
value of key 5: `Exists(5)` still answers true - the folded vector keeps an
entry for key 5 with an empty value list - while `lookup(5)` returns the
empty list, refuting the claimed equivalence. -/
theorem c5_counterexample :
    runExists ltN 8 8 100 eqN
      [.insert 1 ⟨1, 1⟩, .insert 2 ⟨2, 2⟩, .insert 3 ⟨3, 3⟩, .insert 4 ⟨4, 4⟩,
       .insert 5 ⟨5, 5⟩, .insert 6 ⟨6, 6⟩, .insert 7 ⟨7, 7⟩, .insert 8 ⟨8, 8⟩,
       .delete_value 5 ⟨5, 5⟩] 5 = some true ∧
    runSearch ltN 8 8 100 eqN
      [.insert 1 ⟨1, 1⟩, .insert 2 ⟨2, 2⟩, .insert 3 ⟨3, 3⟩, .insert 4 ⟨4, 4⟩,
       .insert 5 ⟨5, 5⟩, .insert 6 ⟨6, 6⟩, .insert 7 ⟨7, 7⟩, .insert 8 ⟨8, 8⟩,
       .delete_value 5 ⟨5, 5⟩] 5 = some [] := by
  constructor
  · decide
  · decide

/-- C3 counterexample.  On an inner base with separator key 5 between
children 10 and 11, the key 5 itself routes to `child_pid[0] = 10`: the scan
stops at the first slot key not less than the key, so an exactly-equal key
goes to the left child, not to `child_pid[1] = 11` as the claim states. -/
theorem c3_counterexample :
    FindNextPIDChain ltN c3Inner 5 = 10 ∧ ¬ (FindNextPIDChain ltN c3Inner 5 = 11) := by
  decide

/-- C10.  The observable results of `Exists`, `Search` and `SearchAll` after
any operation sequence are identical under any two equality checkers: every
key-equality test is `KeyEqual`, computed from the comparator alone, and the
checker argument is dead in every operation. -/
theorem c10_equality_checker_independence (lt : Nat → Nat → Bool) (M I fuel : Nat)
    (e1 e2 : Nat → Nat → Bool) (ops : List Op) (k : Nat) :
    runSearch lt M I fuel e1 ops k = runSearch lt M I fuel e2 ops k ∧
    runExists lt M I fuel e1 ops k = runExists lt M I fuel e2 ops k ∧
    runSearchAll lt M I fuel e1 ops = runSearchAll lt M I fuel e2 ops := by
  have h := runOps_eqc_irrelevant lt M I fuel e1 e2 ops
  refine ⟨?_, ?_, ?_⟩ <;> simp only [runSearch, runExists, runSearchAll, h] <;>
    cases runOps lt M I fuel e2 ops <;> rfl

/-- C6 amended.  The visible `slot_use` of a freshly built delta relative to
the node it is installed over: an insert delta adds one only when the chain
does not already contain the key (else zero); key-only and key-value delete
deltas and update deltas keep it unchanged; a separator delta adds one; a
split delta carries the post-split half size `size / 2` of the folded page. -/
theorem c6_slot_use_of_deltas (lt : Nat → Nat → Bool) (n parent : Node)
    (k : Nat) (v : ItemPointer) (sk l r : Nat) (side child : PID) :
    (mkInsertDelta lt n k v).GetSize
        = n.GetSize + (if LeafContainsKey lt n k then 0 else 1) ∧
    (mkDeleteKeyDelta n k).GetSize = n.GetSize ∧
    (mkDeleteDataDelta n k v).GetSize = n.GetSize ∧
    (mkUpdateDelta n k v).GetSize = n.GetSize ∧
    (mkSeparatorDelta lt parent l r child).GetSize = parent.GetSize + 1 ∧
    (mkSplitDelta n sk side ((GetAllData lt n).length / 2)).GetSize
        = (GetAllData lt n).length / 2 := by
  refine ⟨?_, rfl, rfl, rfl, ?_, rfl⟩
  · cases h : LeafContainsKey lt n k <;>
      simp [mkInsertDelta, Node.GetSize, Node.hdr, h, Nat.add_comm]
  · simp [mkSeparatorDelta, Node.GetSize, Node.hdr, Nat.add_comm]

/- Step lemmas describing one operation on the single-leaf-root state. -/

/-- Bootstrapping a fresh tree yields the single-leaf-root state. -/
theorem ensureRoot_fresh : ensureRoot freshTree = leafRootTree emptyLeafNode := rfl

/-- The bootstrap block does nothing once a root exists. -/
theorem ensureRoot_leafRoot (n : Node) : ensureRoot (leafRootTree n) = leafRootTree n := rfl

/-- Reading PID 1 of the single-leaf-root state. -/
theorem get_leafRoot (n : Node) : (leafRootTree n).Get 1 = some n := rfl

/-- Installing a new chain head at PID 1 of the single-leaf-root state. -/
theorem tableSet_leafRoot (n d : Node) : tableSet (leafRootTree n) 1 d = leafRootTree d := by
  unfold tableSet leafRootTree
  simp only [Tree.mk.injEq, and_true, true_and]
  funext p
  by_cases h : p = 1 <;> simp [h]

/-- The descent loop stops immediately at a leaf head. -/
theorem descendLoop_leaf (lt : Nat → Nat → Bool) (fuel : Nat) (t : Tree) (pid : PID)
    (n : Node) (k : Nat) (hleaf : n.IsLeaf = true) :
    descendLoop lt fuel t pid n k = some (pid, n) := by
  unfold descendLoop
  simp [hleaf]

/-- The insert sibling walk stops immediately when the leaf claims the key. -/
theorem insertSiblingWalk_inRange (lt : Nat → Nat → Bool) (fuel : Nat) (t : Tree)
    (pid : PID) (n : Node) (k : Nat) (h : isInRange lt n k = true) :
    insertSiblingWalk lt fuel t pid n k = some (pid, n) := by
  unfold insertSiblingWalk
  simp [h]

/-- The mutation sibling walk stops immediately when the leaf claims the key. -/
theorem mutateSiblingWalk_inRange (lt : Nat → Nat → Bool) (fuel : Nat) (t : Tree)
    (pid : PID) (n : Node) (k : Nat) (h : isInRange lt n k = true) :
    mutateSiblingWalk lt fuel t pid n k = some (pid, n) := by
  unfold mutateSiblingWalk
  simp [h]

/-- `InsertData` on a tree that bootstraps to the single-leaf-root state with
chain `n`: when the leaf claims the key and the new delta does not reach
`LEAF_SLOT_MAX`, the operation just prepends the insert delta. -/
theorem insertData_leafRoot (lt : Nat → Nat → Bool) (M I fuel : Nat)
    (eqc : Nat → Nat → Bool) (t0 : Tree) (n : Node) (k : Nat) (v : ItemPointer)
    (h0 : ensureRoot t0 = leafRootTree n)
    (hleaf : n.IsLeaf = true)
    (hrange : isInRange lt n k = true)
    (hfull : (mkInsertDelta lt n k v).GetSize ≠ M) :
    InsertData lt M I fuel eqc t0 (k, v) = some (leafRootTree (mkInsertDelta lt n k v)) := by
  have hne : ((mkInsertDelta lt n k v).GetSize == M) = false := by
    simpa using hfull
  unfold InsertData
  rw [h0]
  show (match (leafRootTree n).Get 1 with
    | none => none
    | some rn =>
      match descendLoop lt fuel (leafRootTree n) 1 rn k with
      | none => none
      | some (pid0, n0) =>
        match insertSiblingWalk lt fuel (leafRootTree n) pid0 n0 k with
        | none => none
        | some (pid, nn) =>
          let insert_delta := mkInsertDelta lt nn k v
          let t2 := tableSet (leafRootTree n) pid insert_delta
          if insert_delta.GetSize == M then SplitLeaf lt M I fuel t2 pid else some t2) = _
  simp only [get_leafRoot]
  simp only [descendLoop_leaf lt fuel _ 1 n k hleaf]
  simp only [insertSiblingWalk_inRange lt fuel _ 1 n k hrange]
  simp [hne, tableSet_leafRoot]

/-- `UpdateData` on the single-leaf-root state when the leaf contains the
key: prepend the update delta. -/
theorem updateData_leafRoot (lt : Nat → Nat → Bool) (fuel : Nat)
    (eqc : Nat → Nat → Bool) (t0 : Tree) (n : Node) (k : Nat) (v : ItemPointer)
    (h0 : ensureRoot t0 = leafRootTree n)
    (hleaf : n.IsLeaf = true)
    (hrange : isInRange lt n k = true)
    (hcont : LeafContainsKey lt n k = true) :
    UpdateData lt fuel eqc t0 (k, v) = some (leafRootTree (mkUpdateDelta n k v)) := by
  unfold UpdateData
  rw [h0]
  show (match (leafRootTree n).Get 1 with
    | none => none
    | some rn =>
      match descendLoop lt fuel (leafRootTree n) 1 rn k with
      | none => none
      | some (pid0, n0) =>
        match mutateSiblingWalk lt fuel (leafRootTree n) pid0 n0 k with
        | none => none
        | some (pid, nn) =>
          if !(LeafContainsKey lt nn k) then some (leafRootTree n)
          else some (tableSet (leafRootTree n) pid (mkUpdateDelta nn k v))) = _
  simp only [get_leafRoot]
  simp only [descendLoop_leaf lt fuel _ 1 n k hleaf]
  simp only [mutateSiblingWalk_inRange lt fuel _ 1 n k hrange]
  simp [hcont, tableSet_leafRoot]

/-- `UpdateData` on the single-leaf-root state when the leaf does not contain
the key: no delta is installed. -/
theorem updateData_leafRoot_absent (lt : Nat → Nat → Bool) (fuel : Nat)
    (eqc : Nat → Nat → Bool) (t0 : Tree) (n : Node) (k : Nat) (v : ItemPointer)
    (h0 : ensureRoot t0 = leafRootTree n)
    (hleaf : n.IsLeaf = true)
    (hrange : isInRange lt n k = true)
    (hcont : LeafContainsKey lt n k = false) :
    UpdateData lt fuel eqc t0 (k, v) = some (leafRootTree n) := by
  unfold UpdateData
  rw [h0]
  show (match (leafRootTree n).Get 1 with
    | none => none
    | some rn =>
      match descendLoop lt fuel (leafRootTree n) 1 rn k with
      | none => none
      | some (pid0, n0) =>
        match mutateSiblingWalk lt fuel (leafRootTree n) pid0 n0 k with
        | none => none
        | some (pid, nn) =>
          if !(LeafContainsKey lt nn k) then some (leafRootTree n)
          else some (tableSet (leafRootTree n) pid (mkUpdateDelta nn k v))) = _
  simp only [get_leafRoot]
  simp only [descendLoop_leaf lt fuel _ 1 n k hleaf]
  simp only [mutateSiblingWalk_inRange lt fuel _ 1 n k hrange]
  simp [hcont]

/-- `Search` on the single-leaf-root state folds the root chain and collects
the entries matching the key. -/
theorem search_leafRoot (lt : Nat → Nat → Bool) (fuel : Nat)
    (eqc : Nat → Nat → Bool) (n : Node) (k : Nat)
    (hleaf : n.IsLeaf = true) :
    Search lt fuel eqc (leafRootTree n) k
      = some ((GetAllData lt n).foldl
          (fun r e => if KeyEqual lt k e.1 then r ++ e.2.value_list.map (fun v => (e.1, v)) else r)
          []) := by
  unfold Search GetLeafNodePID
  show (match ((leafRootTree n).Get 1 : Option Node) with
    | none => none
    | some nn =>
      match (descendLoop lt fuel (leafRootTree n) 1 nn k).map Prod.fst with
      | none => none
      | some pid =>
        match (leafRootTree n).Get pid with
        | none => none
        | some leafn =>
          some ((GetAllData lt leafn).foldl
            (fun r (e : Nat × ValueList) =>
              if KeyEqual lt k e.1 then r ++ e.2.value_list.map (fun v => (e.1, v)) else r)
            [])) = _
  simp only [get_leafRoot, descendLoop_leaf lt fuel _ 1 n k hleaf]
  rfl

set_option maxHeartbeats 1000000 in
/-- C1 amended.  Update does not overwrite: the fold treats an update delta
exactly like an insert delta, so for a present key the updated value is added
to the list and all previous values survive (the fold emits the newest delta
first); update of an absent key installs nothing.  For every key and values:
`insert(k,a); insert(k,b); update(k,c); lookup(k)` returns `[c, b, a]`, and a
subsequent `update(k2,c)` on an absent key `k2` leaves `lookup(k2)` empty. -/
theorem c1_update_appends (k k2 : Nat) (a b c : ItemPointer) (hk : k2 ≠ k) :
    runSearch ltN 8 8 100 eqN [.insert k a, .insert k b, .update k c] k
      = some [(k, c), (k, b), (k, a)] ∧
    runSearch ltN 8 8 100 eqN [.insert k a, .insert k b, .update k c, .update k2 c] k2
      = some [] := by
  have hck : KeyEqual ltN k k = true := by simp [keyEqual_ltN]
  have hck2 : KeyEqual ltN k2 k = false := by simp [keyEqual_ltN, hk]
  have hc0 : LeafContainsKey ltN emptyLeafNode k = false := rfl
  have hfull1 : (mkInsertDelta ltN emptyLeafNode k a).GetSize ≠ 8 := by
    show ¬((if LeafContainsKey ltN emptyLeafNode k then 0 else 1)
      + emptyLeafNode.GetSize) = 8
    rw [hc0]
    decide
  have s1 := insertData_leafRoot ltN 8 8 100 eqN freshTree emptyLeafNode k a
    ensureRoot_fresh rfl rfl hfull1
  have hcont1 : LeafContainsKey ltN (mkInsertDelta ltN emptyLeafNode k a) k = true := by
    simp [mkInsertDelta, LeafContainsKey, hck]
  have hfull2 :
      (mkInsertDelta ltN (mkInsertDelta ltN emptyLeafNode k a) k b).GetSize ≠ 8 := by
    show ¬((if LeafContainsKey ltN (mkInsertDelta ltN emptyLeafNode k a) k then 0 else 1)
      + (mkInsertDelta ltN emptyLeafNode k a).GetSize) = 8
    rw [hcont1]
    show ¬(0 + ((if LeafContainsKey ltN emptyLeafNode k then 0 else 1)
      + emptyLeafNode.GetSize)) = 8
    rw [hc0]
    decide
  have s2 := insertData_leafRoot ltN 8 8 100 eqN
    (leafRootTree (mkInsertDelta ltN emptyLeafNode k a))
    (mkInsertDelta ltN emptyLeafNode k a) k b
    (ensureRoot_leafRoot _) rfl rfl hfull2
  have hcont2 : LeafContainsKey ltN
      (mkInsertDelta ltN (mkInsertDelta ltN emptyLeafNode k a) k b) k = true := by
    simp [mkInsertDelta, LeafContainsKey, hck]
  have s3 := updateData_leafRoot ltN 100 eqN
    (leafRootTree (mkInsertDelta ltN (mkInsertDelta ltN emptyLeafNode k a) k b))
    (mkInsertDelta ltN (mkInsertDelta ltN emptyLeafNode k a) k b) k c
    (ensureRoot_leafRoot _) rfl rfl hcont2
  have hdata : GetAllData ltN
      (mkUpdateDelta (mkInsertDelta ltN (mkInsertDelta ltN emptyLeafNode k a) k b) k c)
      = [(k, ⟨[c, b, a]⟩)] := by
    simp [GetAllData, chainFold, mkUpdateDelta, mkInsertDelta, emptyLeafNode,
      VectorContainsData, KeyVectorContainsKey, KeyLess, mergeInsert, applyDeleted,
      readLeafSlots, exchangeSort, outerSortLoop, hck, ValueList.InsertValue]
  have hcontk2 : LeafContainsKey ltN
      (mkUpdateDelta (mkInsertDelta ltN (mkInsertDelta ltN emptyLeafNode k a) k b) k c)
      k2 = false := by
    simp [mkUpdateDelta, mkInsertDelta, LeafContainsKey, hck2, emptyLeafNode, readLeafSlots]
  have s4 := updateData_leafRoot_absent ltN 100 eqN
    (leafRootTree (mkUpdateDelta (mkInsertDelta ltN (mkInsertDelta ltN emptyLeafNode k a) k b) k c))
    (mkUpdateDelta (mkInsertDelta ltN (mkInsertDelta ltN emptyLeafNode k a) k b) k c) k2 c
    (ensureRoot_leafRoot _) rfl rfl hcontk2
  constructor
  · simp only [runSearch, runOps, List.foldlM_cons, List.foldlM_nil, applyOp]
    rw [s1]
    simp only [Option.bind_eq_bind, Option.some_bind, bind_pure_comp, Option.map_some,
      bind_assoc, pure_bind]
    rw [s2]
    simp only [Option.bind_eq_bind, Option.some_bind, Option.map_some, pure_bind]
    rw [s3]
    simp only [Option.map_some, Option.some_bind]
    rw [search_leafRoot ltN 100 eqN
      (mkUpdateDelta (mkInsertDelta ltN (mkInsertDelta ltN emptyLeafNode k a) k b) k c) k rfl,
      hdata]
    simp [hck]
  · simp only [runSearch, runOps, List.foldlM_cons, List.foldlM_nil, applyOp]
    rw [s1]
    simp only [Option.bind_eq_bind, Option.some_bind, bind_pure_comp, Option.map_some,
      bind_assoc, pure_bind]
    rw [s2]
    simp only [Option.bind_eq_bind, Option.some_bind, Option.map_some, pure_bind]
    rw [s3]
    simp only [Option.bind_eq_bind, Option.some_bind, Option.map_some, pure_bind]
    rw [s4]
    simp only [Option.map_some, Option.some_bind]
    rw [search_leafRoot ltN 100 eqN
      (mkUpdateDelta (mkInsertDelta ltN (mkInsertDelta ltN emptyLeafNode k a) k b) k c) k2 rfl,
      hdata]
    simp [hck2]

/-- C1 amended, witness: the concrete instance of the spec scenario. -/
theorem c1_update_appends_witness :
    runSearch ltN 8 8 100 eqN
        [.insert 10 ⟨1, 1⟩, .insert 10 ⟨2, 2⟩, .update 10 ⟨3, 3⟩] 10
      = some [(10, ⟨3, 3⟩), (10, ⟨2, 2⟩), (10, ⟨1, 1⟩)] ∧
    runSearch ltN 8 8 100 eqN
        [.insert 10 ⟨1, 1⟩, .insert 10 ⟨2, 2⟩, .update 10 ⟨3, 3⟩, .update 11 ⟨3, 3⟩] 11
      = some [] :=
  c1_update_appends 10 11 ⟨1, 1⟩ ⟨2, 2⟩ ⟨3, 3⟩ (by decide)

/-- The value collection of `Search` is append-only in its accumulator. -/
theorem searchCollect_acc (lt : Nat → Nat → Bool) (k : Nat)
    (data : List (Nat × ValueList)) :
    ∀ acc : List (Nat × ItemPointer),
      data.foldl
        (fun r e => if KeyEqual lt k e.1 then r ++ e.2.value_list.map (fun v => (e.1, v)) else r)
        acc
      = acc ++ data.foldl
        (fun r e => if KeyEqual lt k e.1 then r ++ e.2.value_list.map (fun v => (e.1, v)) else r)
        [] := by
  induction data with
  | nil => intro acc; simp
  | cons e rest ih =>
    intro acc
    by_cases hp : KeyEqual lt k e.1 = true
    · simp only [List.foldl_cons, hp, if_true]
      rw [ih (acc ++ e.2.value_list.map (fun v => (e.1, v))),
        ih ([] ++ e.2.value_list.map (fun v => (e.1, v)))]
      simp [List.append_assoc]
    · simp only [List.foldl_cons, hp, if_false]
      exact ih acc

/-- A non-empty value collection forces a key-equal entry in the folded
vector. -/
theorem searchCollect_ne_nil (lt : Nat → Nat → Bool) (k : Nat)
    (data : List (Nat × ValueList))
    (h : data.foldl
        (fun r e => if KeyEqual lt k e.1 then r ++ e.2.value_list.map (fun v => (e.1, v)) else r)
        [] ≠ []) :
    VectorContainsKey2 lt data k = true := by
  induction data with
  | nil => simp at h
  | cons e rest ih =>
    by_cases hp : KeyEqual lt k e.1 = true
    · simp [VectorContainsKey2, hp]
    · simp only [List.foldl_cons, hp, if_false] at h
      have := ih h
      simp [VectorContainsKey2] at this ⊢
      exact Or.inr this

/-- C5 amended, positive direction.  Whenever `Search` returns a non-empty
list for a key, `Exists` returns true for the same key on the same tree
state: both route through `GetLeafNodePID` to the same leaf and consult the
same fold.  (The converse fails: see the counterexample, where an entry with
an emptied value list keeps `Exists` true while `Search` yields the empty
list.) -/
theorem c5_lookup_nonempty_implies_exists (lt : Nat → Nat → Bool) (fuel : Nat)
    (eqc : Nat → Nat → Bool) (t : Tree) (k : Nat) (l : List (Nat × ItemPointer))
    (hs : Search lt fuel eqc t k = some l) (hne : l ≠ []) :
    ExistsKey lt fuel eqc t k = some true := by
  simp only [Search] at hs
  split at hs
  · exact absurd hs (by simp)
  · rename_i pid hpid
    split at hs
    · exact absurd hs (by simp)
    · rename_i leafn hget
      simp only [Option.some.injEq] at hs
      have hcoll : (GetAllData lt leafn).foldl
          (fun r e =>
            if KeyEqual lt k e.1 then r ++ e.2.value_list.map (fun v => (e.1, v)) else r)
          [] ≠ [] := by
        rw [hs]; exact hne
      simp only [ExistsKey]
      rw [hpid]
      show (match t.Get pid with
        | none => none
        | some leafn => some (VectorContainsKey2 lt (GetAllData lt leafn) k)) = some true
      rw [hget]
      show some (VectorContainsKey2 lt (GetAllData lt leafn) k) = some true
      rw [searchCollect_ne_nil lt k (GetAllData lt leafn) hcoll]

/-- C5 amended, witness: a tree holding one insert delta for key 5 where the
lookup result is the non-empty `[(5, v)]`. -/
theorem c5_lookup_nonempty_implies_exists_witness :
    ExistsKey ltN 100 eqN c5WitnessTree 5 = some true :=
  c5_lookup_nonempty_implies_exists ltN 100 eqN c5WitnessTree 5 [(5, ⟨5, 5⟩)] rfl (by decide)

/-- The characterization of the linear slot scan of `FindNextPID`: starting
at `lo` with `cnt` remaining slots, the loop stops at the first index whose
key is not below the search key. -/
theorem findLowerSlotGo_spec (lt : Nat → Nat → Bool) (ks : List Nat) (k : Nat) :
    ∀ (cnt lo : Nat),
      lo ≤ findLowerSlotGo lt ks k lo cnt ∧
      findLowerSlotGo lt ks k lo cnt ≤ lo + cnt ∧
      (∀ i, lo ≤ i → i < findLowerSlotGo lt ks k lo cnt → KeyLess lt (ks.getD i 0) k = true) ∧
      (findLowerSlotGo lt ks k lo cnt < lo + cnt →
        KeyLess lt (ks.getD (findLowerSlotGo lt ks k lo cnt) 0) k = false) := by
  intro cnt
  induction cnt with
  | zero =>
    intro lo
    have hgo : findLowerSlotGo lt ks k lo 0 = lo := rfl
    rw [hgo]
    exact ⟨Nat.le_refl _, by omega, by intro i h1 h2; omega, by intro hcon; omega⟩
  | succ c ih =>
    intro lo
    cases h : KeyLess lt (ks.getD lo 0) k with
    | true =>
      have hgo : findLowerSlotGo lt ks k lo (c + 1) = findLowerSlotGo lt ks k (lo + 1) c := by
        simp only [findLowerSlotGo, h, eq_self_iff_true, if_true]
      obtain ⟨ih1, ih2, ih3, ih4⟩ := ih (lo + 1)
      rw [hgo]
      refine ⟨by omega, by omega, ?_, ?_⟩
      · intro i h1 h2
        rcases Nat.eq_or_lt_of_le h1 with he | hlt
        · rw [← he]; exact h
        · exact ih3 i hlt h2
      · intro hlt
        exact ih4 (by omega)
    | false =>
      have hgo : findLowerSlotGo lt ks k lo (c + 1) = lo := by
        simp only [findLowerSlotGo, h, Bool.false_eq_true, if_false]
      rw [hgo]
      exact ⟨Nat.le_refl _, by omega, by intro i h1 h2; omega, fun _ => h⟩

/-- `FindNextPID` skips every delta of a chain none of whose separators
claims the key. -/
theorem findNextPIDChain_skips (lt : Nat → Nat → Bool) (k : Nat) :
    ∀ n : Node, noCoveringSep lt n k = true →
      FindNextPIDChain lt n k = FindNextPIDChain lt (GetBaseNode n) k := by
  intro n
  induction n with
  | leaf_node m pl nl slot => intro _; rfl
  | inner_node m inext c0 slot => intro _; rfl
  | insert_node m c ik iv base ih =>
    intro h
    simp only [noCoveringSep] at h
    simp only [FindNextPIDChain, GetBaseNode]
    exact ih h
  | delete_node m c dk hv dv base ih =>
    intro h
    simp only [noCoveringSep] at h
    simp only [FindNextPIDChain, GetBaseNode]
    exact ih h
  | update_node m c uk uv base ih =>
    intro h
    simp only [noCoveringSep] at h
    simp only [FindNextPIDChain, GetBaseNode]
    exact ih h
  | split_node m c sk side base ih =>
    intro h
    simp only [noCoveringSep] at h
    simp only [FindNextPIDChain, GetBaseNode]
    exact ih h
  | separator_node m c left right child rm base ih =>
    intro h
    simp only [noCoveringSep] at h
    by_cases hcov : (KeyLessEqual lt left k && (rm || KeyLess lt k right)) = true
    · rw [if_pos hcov] at h
      exact absurd h (by simp)
    · rw [if_neg hcov] at h
      simp only [FindNextPIDChain, GetBaseNode]
      rw [if_neg hcov]
      exact ih h

/-- C3 amended.  For a chain whose base is an inner page with sorted slot
keys, when no separator delta claims the key, `FindNextPID` returns
`child_pid[lo]` where `lo` is the smallest index with `slot_key[lo] >= k`
(or `slot_use` when every slot key is below `k`): a key exactly equal to
`slot_key[i]` therefore routes to `child_pid[i]`, the left child. -/
theorem c3_lower_bound_routing (lt : Nat → Nat → Bool) (n : Node) (k : Nat)
    (m : Meta) (inext child0 : PID) (slot : List (Nat × PID))
    (hbase : GetBaseNode n = .inner_node m inext child0 slot)
    (hnosep : noCoveringSep lt n k = true)
    (hsu : m.slot_use = slot.length)
    (hsorted : List.Pairwise (fun a b => lt a.1 b.1 = true) slot) :
    ∃ lo, lo ≤ slot.length ∧
      (∀ i, i < lo → lt ((slot.map Prod.fst).getD i 0) k = true) ∧
      (lo < slot.length → lt ((slot.map Prod.fst).getD lo 0) k = false) ∧
      FindNextPIDChain lt n k = (child0 :: slot.map Prod.snd).getD lo NULL_PID := by
  have hwalk := findNextPIDChain_skips lt k n hnosep
  rw [hbase] at hwalk
  obtain ⟨h1, h2, h3, h4⟩ :=
    findLowerSlotGo_spec lt (slot.map Prod.fst) k slot.length 0
  refine ⟨findLowerSlotGo lt (slot.map Prod.fst) k 0 slot.length, by omega, ?_, ?_, ?_⟩
  · intro i hi
    exact h3 i (Nat.zero_le i) hi
  · intro hlt
    exact h4 (by omega)
  · rw [hwalk]
    simp only [FindNextPIDChain, findLowerSlot, hsu]

/-- C3 amended, witness: on the inner page with slot key 5 between children
10 and 11, the key 3 routes through index 0 to child 10. -/
theorem c3_lower_bound_routing_witness :
    ∃ lo, lo ≤ 1 ∧
      (∀ i, i < lo → ltN (([(5, (11 : PID))].map Prod.fst).getD i 0) 3 = true) ∧
      (lo < 1 → ltN (([(5, (11 : PID))].map Prod.fst).getD lo 0) 3 = false) ∧
      FindNextPIDChain ltN c3Inner 3 = ((10 : PID) :: [(5, (11 : PID))].map Prod.snd).getD lo NULL_PID := by
  exact c3_lower_bound_routing ltN c3Inner 3 ⟨1, 1, NULL_PID⟩ NULL_PID 10 [(5, 11)]
    rfl rfl rfl (by simp)

/- Exchange-sort lemmas: the final sort of `GetAllData` permutes its input
and sorts it by key. -/

/-- Reading within range equals indexed access. -/
theorem getD_lt {α : Type} (l : List α) (i : Nat) (d : α) (h : i < l.length) :
    l.getD i d = l[i] := by
  simp [List.getD_eq_getElem?_getD, List.getElem?_eq_getElem h]

/-- One swap step preserves the length. -/
theorem swapIfGreater_length (lt : Nat → Nat → Bool) (res : List (Nat × ValueList))
    (i j : Nat) : (swapIfGreater lt res i j).length = res.length := by
  unfold swapIfGreater
  split <;> simp

/-- The inner sort loop preserves the length. -/
theorem innerSortLoop_length (lt : Nat → Nat → Bool) :
    ∀ (cnt : Nat) (res : List (Nat × ValueList)) (i j : Nat),
      (innerSortLoop lt res i j cnt).length = res.length := by
  intro cnt
  induction cnt with
  | zero => intro res i j; rfl
  | succ c ih =>
    intro res i j
    show (innerSortLoop lt (swapIfGreater lt res i j) i (j + 1) c).length = _
    rw [ih, swapIfGreater_length]

/-- The outer sort loop preserves the length. -/
theorem outerSortLoop_length (lt : Nat → Nat → Bool) :
    ∀ (cnt : Nat) (res : List (Nat × ValueList)) (i : Nat),
      (outerSortLoop lt res i cnt).length = res.length := by
  intro cnt
  induction cnt with
  | zero => intro res i; rfl
  | succ c ih =>
    intro res i
    show (outerSortLoop lt (innerSortLoop lt res i (i + 1) (res.length - (i + 1))) (i + 1) c).length = _
    rw [ih, innerSortLoop_length]

/-- The exchange sort preserves the length. -/
theorem exchangeSort_length (lt : Nat → Nat → Bool) (res : List (Nat × ValueList)) :
    (exchangeSort lt res).length = res.length := by
  unfold exchangeSort
  rw [outerSortLoop_length]

/-- Exchanging two entries of a list preserves every count. -/
theorem count_set_swap {α : Type} [BEq α] [LawfulBEq α] (l : List α) (i j : Nat)
    (hi : i < l.length) (hj : j < l.length) (hij : i ≠ j) (a : α) :
    List.count a ((l.set i l[j]).set j l[i]) = List.count a l := by
  have hj1 : j < (l.set i l[j]).length := by simpa using hj
  rw [List.count_set _ _ _ _ hj1, List.count_set _ _ _ _ hi]
  rw [List.getElem_set_ne hij]
  by_cases hA : l[i] = a
  · have h1 : 1 ≤ List.count a l := List.one_le_count_iff.mpr (hA ▸ List.getElem_mem hi)
    have hbA : (l[i] == a) = true := beq_iff_eq.mpr hA
    by_cases hB : l[j] = a
    · have hbB : (l[j] == a) = true := beq_iff_eq.mpr hB
      simp only [hbA, hbB, if_true]
      omega
    · have hbB : (l[j] == a) = false := beq_eq_false_iff_ne.mpr hB
      simp only [hbA, hbB, Bool.false_eq_true, if_true, if_false]
      omega
  · have hbA : (l[i] == a) = false := beq_eq_false_iff_ne.mpr hA
    by_cases hB : l[j] = a
    · have hbB : (l[j] == a) = true := beq_iff_eq.mpr hB
      simp only [hbA, hbB, Bool.false_eq_true, if_true, if_false]
      omega
    · have hbB : (l[j] == a) = false := beq_eq_false_iff_ne.mpr hB
      simp only [hbA, hbB, Bool.false_eq_true, if_false]
      omega

/-- Writing back two read slots at distinct indices permutes the list. -/
theorem set_swap_perm (res : List (Nat × ValueList)) (i j : Nat)
    (hi : i < res.length) (hj : j < res.length) (hij : i ≠ j) :
    ((res.set i (res.getD j dfltEntry)).set j (res.getD i dfltEntry)).Perm res := by
  rw [List.perm_iff_count]
  intro a
  rw [getD_lt res i _ hi, getD_lt res j _ hj]
  exact @count_set_swap _ instBEqOfDecidableEq instLawfulBEq res i j hi hj hij a

/-- One swap step permutes the list. -/
theorem swapIfGreater_perm (lt : Nat → Nat → Bool) (res : List (Nat × ValueList))
    (i j : Nat) (hi : i < res.length) (hj : j < res.length) (hij : i ≠ j) :
    (swapIfGreater lt res i j).Perm res := by
  unfold swapIfGreater
  split
  · exact set_swap_perm res i j hi hj hij
  · exact List.Perm.refl res

/-- Reading slot `i` after one swap step. -/
theorem swapIfGreater_getD_i (lt : Nat → Nat → Bool) (res : List (Nat × ValueList))
    (i j : Nat) (hi : i < res.length) (hij : i ≠ j) :
    (swapIfGreater lt res i j).getD i dfltEntry
      = if KeyGreater lt (res.getD i dfltEntry).1 (res.getD j dfltEntry).1 then
          res.getD j dfltEntry
        else res.getD i dfltEntry := by
  unfold swapIfGreater
  split
  · have hlen : i < ((res.set i (res.getD j dfltEntry)).set j (res.getD i dfltEntry)).length := by
      simpa using hi
    rw [getD_lt _ _ _ hlen, List.getElem_set_ne (Ne.symm hij), List.getElem_set_self]
  · rfl

/-- Reading slot `j` after one swap step. -/
theorem swapIfGreater_getD_j (lt : Nat → Nat → Bool) (res : List (Nat × ValueList))
    (i j : Nat) (hi : i < res.length) (hj : j < res.length) :
    (swapIfGreater lt res i j).getD j dfltEntry
      = if KeyGreater lt (res.getD i dfltEntry).1 (res.getD j dfltEntry).1 then
          res.getD i dfltEntry
        else res.getD j dfltEntry := by
  unfold swapIfGreater
  split
  · have hlen : j < ((res.set i (res.getD j dfltEntry)).set j (res.getD i dfltEntry)).length := by
      simpa using hj
    rw [getD_lt _ _ _ hlen, List.getElem_set_self]
  · rfl

/-- One swap step leaves slots other than `i` and `j` unchanged. -/
theorem swapIfGreater_getD_other (lt : Nat → Nat → Bool) (res : List (Nat × ValueList))
    (i j m : Nat) (hmi : m ≠ i) (hmj : m ≠ j) :
    (swapIfGreater lt res i j).getD m dfltEntry = res.getD m dfltEntry := by
  unfold swapIfGreater
  split
  · by_cases hm : m < res.length
    · have hm2 : m < ((res.set i (res.getD j dfltEntry)).set j (res.getD i dfltEntry)).length := by
        simpa using hm
      rw [getD_lt _ _ _ hm2, getD_lt _ _ _ hm]
      rw [List.getElem_set_ne (Ne.symm hmj), List.getElem_set_ne (Ne.symm hmi)]
    · have hm2 : res.length ≤ m := Nat.le_of_not_lt hm
      rw [List.getD_eq_default _ _ (by simpa using hm2), List.getD_eq_default _ _ hm2]
  · rfl

/-- The natural-number comparator decides strict order. -/
theorem ltN_eq_true (a b : Nat) : ltN a b = true ↔ a < b := by simp [ltN]

/-- The key at slot `i` after one swap step never increases, and becomes a
lower bound of the key at slot `j`. -/
theorem swapIfGreater_key_bounds (res : List (Nat × ValueList)) (i j : Nat)
    (hi : i < res.length) (hj : j < res.length) (hij : i ≠ j) :
    ((swapIfGreater ltN res i j).getD i dfltEntry).1 ≤ (res.getD i dfltEntry).1 ∧
    ((swapIfGreater ltN res i j).getD i dfltEntry).1
      ≤ ((swapIfGreater ltN res i j).getD j dfltEntry).1 := by
  rw [swapIfGreater_getD_i ltN res i j hi hij, swapIfGreater_getD_j ltN res i j hi hj]
  by_cases h : KeyGreater ltN (res.getD i dfltEntry).1 (res.getD j dfltEntry).1 = true
  · have horder : (res.getD j dfltEntry).1 < (res.getD i dfltEntry).1 := by
      simpa [KeyGreater, ltN] using h
    rw [if_pos h, if_pos h]
    omega
  · have horder : ¬ ((res.getD j dfltEntry).1 < (res.getD i dfltEntry).1) := by
      simpa [KeyGreater, ltN] using h
    rw [if_neg h, if_neg h]
    omega

/-- The full specification of one inner exchange-sort pass: the pass permutes
the list, leaves slots below `j` other than `i` untouched, never increases
the key at slot `i`, and makes that key a lower bound of every slot from `j`
to the end. -/
theorem innerSortLoop_spec :
    ∀ (cnt : Nat) (res : List (Nat × ValueList)) (i j : Nat),
      i < j → res.length = j + cnt →
      (innerSortLoop ltN res i j cnt).Perm res ∧
      (∀ m, m ≠ i → m < j →
        (innerSortLoop ltN res i j cnt).getD m dfltEntry = res.getD m dfltEntry) ∧
      ((innerSortLoop ltN res i j cnt).getD i dfltEntry).1 ≤ (res.getD i dfltEntry).1 ∧
      (∀ m, j ≤ m → m < j + cnt →
        ((innerSortLoop ltN res i j cnt).getD i dfltEntry).1
          ≤ ((innerSortLoop ltN res i j cnt).getD m dfltEntry).1) := by
  intro cnt
  induction cnt with
  | zero =>
    intro res i j hij hlen
    exact ⟨List.Perm.refl _, fun m _ _ => rfl, Nat.le_refl _, fun m h1 h2 => by omega⟩
  | succ c ih =>
    intro res i j hij hlen
    have hi : i < res.length := by omega
    have hj : j < res.length := by omega
    have hlen2 : (swapIfGreater ltN res i j).length = res.length :=
      swapIfGreater_length ltN res i j
    have s2 : (swapIfGreater ltN res i j).Perm res :=
      swapIfGreater_perm ltN res i j hi hj (by omega)
    have s45 := swapIfGreater_key_bounds res i j hi hj (by omega)
    obtain ⟨ih2, ih3, ih4, ih5⟩ := ih (swapIfGreater ltN res i j) i (j + 1)
      (by omega) (by rw [hlen2]; omega)
    have hgo : innerSortLoop ltN res i j (c + 1)
        = innerSortLoop ltN (swapIfGreater ltN res i j) i (j + 1) c := rfl
    rw [hgo]
    refine ⟨ih2.trans s2, ?_, ?_, ?_⟩
    · intro m hmi hmj
      rw [ih3 m hmi (by omega)]
      exact swapIfGreater_getD_other ltN res i j m hmi (by omega)
    · exact Nat.le_trans ih4 s45.1
    · intro m h1 h2
      rcases Nat.eq_or_lt_of_le h1 with he | hlt
      · have hjr : (innerSortLoop ltN (swapIfGreater ltN res i j) i (j + 1) c).getD j dfltEntry
            = (swapIfGreater ltN res i j).getD j dfltEntry :=
          ih3 j (by omega) (by omega)
        rw [← he, hjr]
        exact Nat.le_trans ih4 s45.2
      · exact ih5 m hlt (by omega)

/-- Lists of at most one element are vacuously pairwise related. -/
theorem pairwise_short {α : Type} {R : α → α → Prop} (l : List α) (h : l.length ≤ 1) :
    List.Pairwise R l := by
  cases l with
  | nil => exact .nil
  | cons a t =>
    cases t with
    | nil => simp
    | cons b u => simp at h

/-- Lists agreeing slotwise below `i` have equal `i`-prefixes. -/
theorem take_eq_of_getD (r s : List (Nat × ValueList)) (i : Nat)
    (hlr : r.length = s.length)
    (h : ∀ m, m < i → r.getD m dfltEntry = s.getD m dfltEntry) :
    r.take i = s.take i := by
  apply List.ext_getElem (by simp [hlr])
  intro n h1 h2
  have hn1 : n < r.length := by simp at h1; omega
  have hn2 : n < s.length := by simp at h2; omega
  have hni : n < i := by simp at h1; omega
  have := h n hni
  rw [getD_lt _ _ _ hn1, getD_lt _ _ _ hn2] at this
  simpa using this

/-- A permutation with an equal prefix restricts to a permutation of the
suffixes. -/
theorem drop_perm_of_perm_take_eq (r s : List (Nat × ValueList)) (i : Nat)
    (hp : r.Perm s) (ht : r.take i = s.take i) : (r.drop i).Perm (s.drop i) := by
  have hsplit : (r.take i ++ r.drop i).Perm (s.take i ++ s.drop i) := by
    rw [List.take_append_drop, List.take_append_drop]
    exact hp
  rw [ht] at hsplit
  exact (List.perm_append_left_iff _).mp hsplit

/-- Every member of a suffix is a slot at an index past the cut. -/
theorem mem_drop_getD (r : List (Nat × ValueList)) (i : Nat) (y : Nat × ValueList)
    (hy : y ∈ r.drop i) :
    ∃ m, i ≤ m ∧ m < r.length ∧ y = r.getD m dfltEntry := by
  obtain ⟨n, hn, he⟩ := List.mem_iff_getElem.mp hy
  have hlen : n < r.length - i := by simpa using hn
  refine ⟨i + n, by omega, by omega, ?_⟩
  rw [getD_lt _ _ _ (by omega)]
  rw [List.getElem_drop] at he
  exact he.symm

/-- The first slot of a suffix is a member of it. -/
theorem getD_mem_drop (r : List (Nat × ValueList)) (i : Nat) (hi : i < r.length) :
    r.getD i dfltEntry ∈ r.drop i := by
  have hlen : 0 < (r.drop i).length := by simp; omega
  have : (r.drop i)[0] = r[i] := by
    simp [List.getElem_drop]
  rw [getD_lt _ _ _ hi, ← this]
  exact List.getElem_mem hlen

/-- The outer exchange-sort loop: given a sorted prefix below the threshold
bounding the suffix, the remaining passes permute the list and deliver a list
sorted by key throughout. -/
theorem outerSortLoop_spec :
    ∀ (cnt : Nat) (res : List (Nat × ValueList)) (i : Nat),
      res.length = i + cnt + 1 →
      List.Pairwise (fun e f => e.1 ≤ f.1) (res.take i) →
      (∀ x ∈ res.take i, ∀ y ∈ res.drop i, x.1 ≤ y.1) →
      (outerSortLoop ltN res i cnt).Perm res ∧
      List.Pairwise (fun e f => e.1 ≤ f.1) (outerSortLoop ltN res i cnt) := by
  intro cnt
  induction cnt with
  | zero =>
    intro res i hlen hpre hcross
    constructor
    · exact List.Perm.refl _
    · show List.Pairwise (fun e f => e.1 ≤ f.1) res
      rw [← List.take_append_drop i res]
      exact List.pairwise_append.mpr
        ⟨hpre, pairwise_short _ (by simp [hlen]), hcross⟩
  | succ c ih =>
    intro res i hlen hpre hcross
    have hcnt : res.length - (i + 1) = c + 1 := by omega
    show (outerSortLoop ltN
        (innerSortLoop ltN res i (i + 1) (res.length - (i + 1))) (i + 1) c).Perm res ∧
      List.Pairwise (fun e f => e.1 ≤ f.1)
        (outerSortLoop ltN (innerSortLoop ltN res i (i + 1) (res.length - (i + 1))) (i + 1) c)
    rw [hcnt]
    obtain ⟨a2, a3, a4, a5⟩ := innerSortLoop_spec (c + 1) res i (i + 1) (by omega) (by omega)
    have hi : i < res.length := by omega
    have hlen1 : (innerSortLoop ltN res i (i + 1) (c + 1)).length = res.length :=
      innerSortLoop_length ltN (c + 1) res i (i + 1)
    have htake : (innerSortLoop ltN res i (i + 1) (c + 1)).take i = res.take i :=
      take_eq_of_getD _ _ i hlen1 (fun m hm => a3 m (by omega) (by omega))
    have hdperm : ((innerSortLoop ltN res i (i + 1) (c + 1)).drop i).Perm (res.drop i) :=
      drop_perm_of_perm_take_eq _ _ i a2 htake
    have hmemi : (innerSortLoop ltN res i (i + 1) (c + 1)).getD i dfltEntry ∈ res.drop i :=
      hdperm.mem_iff.mp (getD_mem_drop _ i (by omega))
    have hts : (innerSortLoop ltN res i (i + 1) (c + 1)).take (i + 1)
        = res.take i ++ [(innerSortLoop ltN res i (i + 1) (c + 1)).getD i dfltEntry] := by
      rw [List.take_succ, htake]
      have hgi : (innerSortLoop ltN res i (i + 1) (c + 1))[i]?
          = some ((innerSortLoop ltN res i (i + 1) (c + 1)).getD i dfltEntry) := by
        rw [getD_lt _ _ _ (by omega), List.getElem?_eq_getElem (by omega)]
      rw [hgi]
      rfl
    have hsub : ∀ y ∈ (innerSortLoop ltN res i (i + 1) (c + 1)).drop (i + 1),
        y ∈ res.drop i := by
      intro y hy
      apply hdperm.mem_iff.mp
      have : (innerSortLoop ltN res i (i + 1) (c + 1)).drop (i + 1)
          = ((innerSortLoop ltN res i (i + 1) (c + 1)).drop i).drop 1 := by
        rw [List.drop_drop]
      rw [this] at hy
      exact List.drop_subset _ _ hy
    have hbound : ∀ y ∈ (innerSortLoop ltN res i (i + 1) (c + 1)).drop (i + 1),
        ((innerSortLoop ltN res i (i + 1) (c + 1)).getD i dfltEntry).1 ≤ y.1 := by
      intro y hy
      obtain ⟨m, hm1, hm2, hm3⟩ := mem_drop_getD _ _ y hy
      rw [hm3]
      exact a5 m hm1 (by omega)
    obtain ⟨ihp, ihs⟩ := ih (innerSortLoop ltN res i (i + 1) (c + 1)) (i + 1)
      (by omega)
      (by
        rw [hts]
        refine List.pairwise_append.mpr ⟨hpre, pairwise_short _ (by simp), ?_⟩
        intro x hx y hy
        have hy2 : y = (innerSortLoop ltN res i (i + 1) (c + 1)).getD i dfltEntry := by
          simpa using hy
        rw [hy2]
        exact hcross x hx _ hmemi)
      (by
        intro x hx y hy
        rw [hts] at hx
        rcases List.mem_append.mp hx with hx1 | hx2
        · exact hcross x hx1 y (hsub y hy)
        · have hx3 : x = (innerSortLoop ltN res i (i + 1) (c + 1)).getD i dfltEntry := by
            simpa using hx2
          rw [hx3]
          exact hbound y hy)
    exact ⟨ihp.trans a2, ihs⟩

/-- The closing exchange sort of `GetAllData` permutes its input and sorts it
by key. -/
theorem exchangeSort_perm_sorted (res : List (Nat × ValueList)) :
    (exchangeSort ltN res).Perm res ∧
    List.Pairwise (fun e f => e.1 ≤ f.1) (exchangeSort ltN res) := by
  cases hlen : res.length with
  | zero =>
    have : res = [] := List.length_eq_zero.mp hlen
    subst this
    exact ⟨List.Perm.refl _, List.Pairwise.nil⟩
  | succ L =>
    unfold exchangeSort
    rw [hlen]
    show (outerSortLoop ltN res 0 (L + 1 - 1)).Perm res ∧ _
    have : L + 1 - 1 = L := rfl
    rw [this]
    exact outerSortLoop_spec L res 0 (by omega) (by simp) (by simp)

/- Fold lemmas for insert chains over a leaf base page. -/

/-- The chain walk of `GetAllData` over an insert chain with no split
collects exactly the chain pairs, newest first. -/
theorem chainFold_insChain (m : Meta) (pl nl : PID) (slot : List (Nat × ValueList)) :
    ∀ (l : List (Nat × ItemPointer)) (ins0 : List (Nat × ItemPointer)),
      chainFold ltN (insChain l (.leaf_node m pl nl slot)) ⟨ins0, [], [], false, 0⟩
        = (⟨ins0 ++ l, [], [], false, 0⟩, .leaf_node m pl nl slot) := by
  intro l
  induction l with
  | nil => intro ins0; simp [insChain, chainFold]
  | cons p rest ih =>
    intro ins0
    show chainFold ltN
      (.insert_node ⟨0, rest.length + 1, NULL_PID⟩ (rest.length + 1) p.1 p.2
        (insChain rest (.leaf_node m pl nl slot))) ⟨ins0, [], [], false, 0⟩ = _
    simp only [chainFold, VectorContainsData, KeyVectorContainsKey, List.any_nil,
      Bool.not_false, Bool.false_or, Bool.and_true, Bool.true_and, Bool.not_true,
      Bool.true_or, if_true]
    rw [ih (ins0 ++ [(p.1, p.2)])]
    simp

/-- The chain walk over an insert chain below a split delta keeps exactly the
pairs whose key is below the split key. -/
theorem chainFold_insChain_split (m : Meta) (pl nl : PID) (slot : List (Nat × ValueList))
    (sk : Nat) :
    ∀ (l : List (Nat × ItemPointer)) (ins0 : List (Nat × ItemPointer)),
      chainFold ltN (insChain l (.leaf_node m pl nl slot)) ⟨ins0, [], [], true, sk⟩
        = (⟨ins0 ++ l.filter (fun p => ltN p.1 sk), [], [], true, sk⟩,
            .leaf_node m pl nl slot) := by
  intro l
  induction l with
  | nil => intro ins0; simp [insChain, chainFold]
  | cons p rest ih =>
    intro ins0
    show chainFold ltN
      (.insert_node ⟨0, rest.length + 1, NULL_PID⟩ (rest.length + 1) p.1 p.2
        (insChain rest (.leaf_node m pl nl slot))) ⟨ins0, [], [], true, sk⟩ = _
    cases hf : ltN p.1 sk with
    | true =>
      simp only [chainFold, VectorContainsData, KeyVectorContainsKey, List.any_nil,
        Bool.not_false, Bool.and_true, Bool.true_and, Bool.not_true, Bool.false_or,
        KeyLess, hf, if_true]
      rw [ih (ins0 ++ [(p.1, p.2)])]
      simp [List.filter_cons, hf]
    | false =>
      simp only [chainFold, VectorContainsData, KeyVectorContainsKey, List.any_nil,
        Bool.not_false, Bool.and_true, Bool.true_and, Bool.not_true, Bool.false_or,
        KeyLess, hf, Bool.false_and, Bool.false_eq_true, if_false]
      rw [ih ins0]
      simp [List.filter_cons, hf]

/-- Merging one pair whose key matches no accumulated entry appends a fresh
singleton entry. -/
theorem mergeInsert_no_match (p : Nat × ItemPointer) :
    ∀ (acc : List (Nat × ValueList)),
      (∀ e ∈ acc, KeyEqual ltN p.1 e.1 = false) →
      mergeInsert ltN p acc = acc ++ [(p.1, ⟨[p.2]⟩)] := by
  intro acc
  induction acc with
  | nil => intro _; rfl
  | cons e rest ih =>
    intro h
    have he := h e (by simp)
    show mergeInsert ltN p (e :: rest) = _
    simp only [mergeInsert, he, Bool.false_eq_true, if_false]
    rw [ih (fun x hx => h x (by simp [hx]))]
    simp

/-- Merging pairs with pairwise-distinct keys, none matching the
accumulator, appends singleton entries in order. -/
theorem foldl_mergeInsert_distinct :
    ∀ (l : List (Nat × ItemPointer)) (acc : List (Nat × ValueList)),
      (l.map Prod.fst).Nodup →
      (∀ p ∈ l, ∀ e ∈ acc, KeyEqual ltN p.1 e.1 = false) →
      l.foldl (fun r p => mergeInsert ltN p r) acc
        = acc ++ l.map (fun p => (p.1, (⟨[p.2]⟩ : ValueList))) := by
  intro l
  induction l with
  | nil => intro acc _ _; simp
  | cons p rest ih =>
    intro acc hnd hsep
    simp only [List.foldl_cons]
    rw [mergeInsert_no_match p acc (fun e he => hsep p (by simp) e he)]
    have hnd2 : (rest.map Prod.fst).Nodup := by
      simp only [List.map_cons, List.nodup_cons] at hnd
      exact hnd.2
    have hnotin : p.1 ∉ rest.map Prod.fst := by
      simp only [List.map_cons, List.nodup_cons] at hnd
      exact hnd.1
    have hsep2 : ∀ q ∈ rest, ∀ e ∈ acc ++ [(p.1, (⟨[p.2]⟩ : ValueList))],
        KeyEqual ltN q.1 e.1 = false := by
      intro q hq e he
      rcases List.mem_append.mp he with h1 | h2
      · exact hsep q (by simp [hq]) e h1
      · have he2 : e = (p.1, (⟨[p.2]⟩ : ValueList)) := by simpa using h2
        rw [he2, keyEqual_ltN]
        have hqp : q.1 ≠ p.1 := by
          intro hcon
          exact hnotin (hcon ▸ List.mem_map_of_mem Prod.fst hq)
        simp [hqp]
    rw [ih (acc ++ [(p.1, (⟨[p.2]⟩ : ValueList))]) hnd2 hsep2]
    simp

/-- The trailing empty-vector test of `GetAllData` is immaterial: the sort of
the empty vector is empty. -/
theorem ite_length_exchangeSort (x : List (Nat × ValueList)) :
    (if x.length == 0 then x else exchangeSort ltN x) = exchangeSort ltN x := by
  cases x with
  | nil => rfl
  | cons e rest => rfl

/-- `GetAllData` of an insert chain with pairwise-distinct keys over an empty
leaf: the sorted list of singleton entries. -/
theorem getAllData_insChain (l : List (Nat × ItemPointer)) (lv : Nat) (par pl nl : PID)
    (hnd : (l.map Prod.fst).Nodup) :
    GetAllData ltN (insChain l (.leaf_node ⟨lv, 0, par⟩ pl nl []))
      = exchangeSort ltN (l.map (fun p => (p.1, (⟨[p.2]⟩ : ValueList)))) := by
  have hcf := chainFold_insChain ⟨lv, 0, par⟩ pl nl [] l []
  simp only [GetAllData, hcf, readLeafSlots, List.range_zero, List.map_nil,
    List.filter_nil, applyDeleted, List.foldl_nil, List.nil_append]
  rw [foldl_mergeInsert_distinct l [] hnd (fun p _ e he => absurd he (by simp))]
  rw [List.nil_append]
  exact ite_length_exchangeSort _

/- Structural facts about insert chains over a leaf base. -/

/-- An insert chain over a level-0 leaf reports itself as a leaf. -/
theorem insChain_IsLeaf (su : Nat) (par pl nl : PID) (slot : List (Nat × ValueList))
    (l : List (Nat × ItemPointer)) :
    (insChain l (.leaf_node ⟨0, su, par⟩ pl nl slot)).IsLeaf = true := by
  cases l <;> rfl

/-- An insert chain imposes no range restriction. -/
theorem insChain_isInRange (k : Nat) (m : Meta) (pl nl : PID)
    (slot : List (Nat × ValueList)) (l : List (Nat × ItemPointer)) :
    isInRange ltN (insChain l (.leaf_node m pl nl slot)) k = true := by
  induction l with
  | nil => rfl
  | cons p rest ih =>
    show isInRange ltN (insChain rest (.leaf_node m pl nl slot)) k = true
    exact ih

/-- The visible `slot_use` of an insert chain over an empty leaf equals the
chain length. -/
theorem insChain_GetSize (m : Meta) (pl nl : PID) (slot : List (Nat × ValueList))
    (hm : m.slot_use = 0) (l : List (Nat × ItemPointer)) :
    (insChain l (.leaf_node m pl nl slot)).GetSize = l.length := by
  cases l with
  | nil => simpa [insChain, Node.GetSize, Node.hdr] using hm
  | cons p rest => rfl

/-- The visible level of an insert chain over a level-0 leaf is 0. -/
theorem insChain_GetLevel (m : Meta) (pl nl : PID) (slot : List (Nat × ValueList))
    (hm : m.level = 0) (l : List (Nat × ItemPointer)) :
    (insChain l (.leaf_node m pl nl slot)).GetLevel = 0 := by
  cases l with
  | nil => simpa [insChain, Node.GetLevel, Node.hdr] using hm
  | cons p rest => rfl

/-- The chain length bookkeeping of `InsertData` on an insert chain. -/
theorem deltaLen_insChain (m : Meta) (pl nl : PID) (slot : List (Nat × ValueList))
    (l : List (Nat × ItemPointer)) :
    deltaLen (insChain l (.leaf_node m pl nl slot)) = l.length + 1 := by
  cases l <;> rfl

/-- A key absent from an insert chain over an empty leaf is not claimed by
`LeafContainsKey`. -/
theorem insChain_LeafContainsKey_false (m : Meta) (pl nl : PID) (hm : m.slot_use = 0)
    (k : Nat) :
    ∀ l : List (Nat × ItemPointer), k ∉ l.map Prod.fst →
      LeafContainsKey ltN (insChain l (.leaf_node m pl nl [])) k = false := by
  intro l
  induction l with
  | nil =>
    intro _
    show (readLeafSlots m.slot_use []).any (fun e => KeyEqual ltN k e.1) = false
    rw [hm]
    rfl
  | cons p rest ih =>
    intro hk
    show (if KeyEqual ltN k p.1 then true
      else LeafContainsKey ltN (insChain rest (.leaf_node m pl nl [])) k) = false
    have hkp : k ≠ p.1 := fun hc => hk (by simp [hc])
    have htail : k ∉ rest.map Prod.fst := fun hc => hk (by simp [hc])
    rw [keyEqual_ltN, if_neg (by simp [hkp])]
    exact ih htail

/-- Building the insert delta of a fresh key over an insert chain extends the
chain: level 0, `slot_use` and chain length both one more. -/
theorem mkInsertDelta_insChain (par pl nl : PID) (k : Nat) (v : ItemPointer)
    (l : List (Nat × ItemPointer)) (hk : k ∉ l.map Prod.fst) :
    mkInsertDelta ltN (insChain l (.leaf_node ⟨0, 0, par⟩ pl nl [])) k v
      = insChain ((k, v) :: l) (.leaf_node ⟨0, 0, par⟩ pl nl []) := by
  unfold mkInsertDelta
  rw [insChain_LeafContainsKey_false ⟨0, 0, par⟩ pl nl rfl k l hk]
  rw [insChain_GetLevel ⟨0, 0, par⟩ pl nl [] rfl l]
  rw [insChain_GetSize ⟨0, 0, par⟩ pl nl [] rfl l]
  rw [deltaLen_insChain ⟨0, 0, par⟩ pl nl [] l]
  show Node.insert_node ⟨0, 1 + l.length, NULL_PID⟩ (l.length + 1) k v _ = _
  rw [Nat.add_comm 1 l.length]
  rfl

/-- Setting the base parent pushes through an insert chain. -/
theorem setBaseParent_insChain (m : Meta) (pl nl q : PID) (slot : List (Nat × ValueList))
    (l : List (Nat × ItemPointer)) :
    setBaseParent (insChain l (.leaf_node m pl nl slot)) q
      = insChain l (.leaf_node ⟨m.level, m.slot_use, q⟩ pl nl slot) := by
  induction l with
  | nil => rfl
  | cons p rest ih =>
    show Node.insert_node ⟨0, rest.length + 1, NULL_PID⟩ (rest.length + 1) p.1 p.2
      (setBaseParent (insChain rest (.leaf_node m pl nl slot)) q) = _
    rw [ih]
    rfl

/-- Setting the base next-sibling pointer pushes through an insert chain. -/
theorem setBaseNext_insChain (m : Meta) (pl nl q : PID) (slot : List (Nat × ValueList))
    (l : List (Nat × ItemPointer)) :
    setBaseNext (insChain l (.leaf_node m pl nl slot)) q
      = insChain l (.leaf_node m pl q slot) := by
  induction l with
  | nil => rfl
  | cons p rest ih =>
    show Node.insert_node ⟨0, rest.length + 1, NULL_PID⟩ (rest.length + 1) p.1 p.2
      (setBaseNext (insChain rest (.leaf_node m pl nl slot)) q) = _
    rw [ih]
    rfl

/-- The base page of an insert chain. -/
theorem getBaseNode_insChain (m : Meta) (pl nl : PID) (slot : List (Nat × ValueList))
    (l : List (Nat × ItemPointer)) :
    GetBaseNode (insChain l (.leaf_node m pl nl slot)) = .leaf_node m pl nl slot := by
  induction l with
  | nil => rfl
  | cons p rest ih =>
    show GetBaseNode (insChain rest (.leaf_node m pl nl slot)) = _
    exact ih

/-- Reading exactly the in-use prefix of a slot array returns the array. -/
theorem readLeafSlots_self (slot : List (Nat × ValueList)) :
    readLeafSlots slot.length slot = slot := by
  apply List.ext_getElem
  · simp [readLeafSlots]
  · intro i h1 h2
    simp [readLeafSlots, List.getD_eq_getElem?_getD, List.getElem?_eq_getElem h2]

/-- `GetAllData` of a split delta over an insert chain with pairwise-distinct
keys over an empty leaf: the sorted singleton entries of the pairs below the
split key. -/
theorem getAllData_splitChain (hm : Meta) (cl : Nat) (sk : Nat) (side : PID)
    (l : List (Nat × ItemPointer)) (lv : Nat) (par pl nl : PID)
    (hnd : (l.map Prod.fst).Nodup) :
    GetAllData ltN
        (.split_node hm cl sk side (insChain l (.leaf_node ⟨lv, 0, par⟩ pl nl [])))
      = exchangeSort ltN ((l.filter (fun p => ltN p.1 sk)).map
          (fun p => (p.1, (⟨[p.2]⟩ : ValueList)))) := by
  have hcf : chainFold ltN
      (.split_node hm cl sk side (insChain l (.leaf_node ⟨lv, 0, par⟩ pl nl [])))
      ⟨[], [], [], false, 0⟩
      = (⟨[] ++ l.filter (fun p => ltN p.1 sk), [], [], true, sk⟩,
          .leaf_node ⟨lv, 0, par⟩ pl nl []) := by
    show chainFold ltN (insChain l (.leaf_node ⟨lv, 0, par⟩ pl nl []))
      ⟨[], [], [], true, sk⟩ = _
    exact chainFold_insChain_split ⟨lv, 0, par⟩ pl nl [] sk l []
  have hndf : ((l.filter (fun p => ltN p.1 sk)).map Prod.fst).Nodup :=
    List.Nodup.sublist (List.Sublist.map Prod.fst (List.filter_sublist l)) hnd
  simp only [GetAllData, hcf, readLeafSlots, List.range_zero, List.map_nil,
    List.filter_nil, applyDeleted, List.foldl_nil, List.nil_append]
  rw [foldl_mergeInsert_distinct _ [] hndf (fun p _ e he => absurd he (by simp))]
  rw [List.nil_append]
  exact ite_length_exchangeSort _

/-- `GetAllData` of a bare leaf whose `slot_use` covers its slots: the sorted
slot array. -/
theorem getAllData_leaf (lv : Nat) (par pl nl : PID) (slot : List (Nat × ValueList)) :
    GetAllData ltN (.leaf_node ⟨lv, slot.length, par⟩ pl nl slot)
      = exchangeSort ltN slot := by
  have hcf : chainFold ltN (.leaf_node ⟨lv, slot.length, par⟩ pl nl slot)
      ⟨[], [], [], false, 0⟩
      = (⟨[], [], [], false, 0⟩, .leaf_node ⟨lv, slot.length, par⟩ pl nl slot) := rfl
  simp only [GetAllData, hcf, readLeafSlots_self, applyDeleted, List.foldl_nil,
    KeyVectorContainsKey, List.any_nil, Bool.not_false, Bool.true_or, Bool.and_self,
    Bool.true_and, List.filter_true]
  exact ite_length_exchangeSort _

/- Counting entries below the split key in the sorted buffer. -/

/-- In a list strictly sorted on keys, exactly the first `pos` entries have a
key below the key at position `pos`. -/
theorem countP_lt_sorted (B : List (Nat × ValueList)) (pos : Nat) (hpos : pos < B.length)
    (hs : List.Pairwise (fun e f => e.1 < f.1) B) :
    B.countP (fun e => ltN e.1 ((B.getD pos dfltEntry).1)) = pos := by
  have hgd : B.getD pos dfltEntry = B[pos] := by
    simp [List.getD_eq_getElem?_getD, List.getElem?_eq_getElem hpos]
  rw [hgd]
  have hp := List.pairwise_iff_getElem.mp hs
  have hsplit : B.take pos ++ B.drop pos = B := List.take_append_drop pos B
  have htlen : (B.take pos).length = pos := by
    simp [List.length_take, Nat.min_eq_left (Nat.le_of_lt hpos)]
  have hcount : (B.take pos ++ B.drop pos).countP
      (fun e => ltN e.1 (B[pos].1)) = pos := by
    rw [List.countP_append]
    have h1 : (B.take pos).countP (fun e => ltN e.1 (B[pos].1)) = pos := by
      rw [List.countP_eq_length.mpr, htlen]
      intro a ha
      obtain ⟨i, hi, hval⟩ := List.mem_iff_getElem.mp ha
      have hip : i < pos := htlen ▸ hi
      have hbi : (B.take pos)[i] = B[i] := List.getElem_take _
      have hlt : B[i].1 < B[pos].1 := by
        have := hp i pos (Nat.lt_of_lt_of_le hip (Nat.le_of_lt hpos)) hpos hip
        exact this
      rw [← hval, hbi]
      simpa [ltN] using hlt
    have h2 : (B.drop pos).countP (fun e => ltN e.1 (B[pos].1)) = 0 := by
      rw [List.countP_eq_zero]
      intro a ha
      obtain ⟨i, hi, hval⟩ := List.mem_iff_getElem.mp ha
      have hlen2 : pos + i < B.length := by
        have := hi
        rw [List.length_drop] at this
        omega
      have hbi : (B.drop pos)[i] = B[pos + i] := by
        simp [List.getElem_drop]
      have hge : ¬ (B[pos + i].1 < B[pos].1) := by
        cases Nat.eq_zero_or_pos i with
        | inl h0 =>
          subst h0
          simp
        | inr hposI =>
          have := hp pos (pos + i) hpos hlen2 (by omega)
          omega
      rw [← hval, hbi]
      simpa [ltN] using hge
    rw [h1, h2]
    omega
  rw [hsplit] at hcount
  exact hcount

/-- The folded buffer of an insert chain has one entry per inserted pair. -/
theorem c7Buffer_length (l : List (Nat × ItemPointer)) :
    (c7Buffer l).length = l.length := by
  unfold c7Buffer
  rw [exchangeSort_length, List.length_map]

/-- The folded buffer permutes the singleton entries of the pairs. -/
theorem c7Buffer_perm (l : List (Nat × ItemPointer)) :
    (c7Buffer l).Perm (l.map (fun p => (p.1, (⟨[p.2]⟩ : ValueList)))) := by
  unfold c7Buffer
  exact (exchangeSort_perm_sorted _).1

/-- With pairwise-distinct keys the folded buffer is strictly sorted. -/
theorem c7Buffer_sorted_strict (l : List (Nat × ItemPointer))
    (hnd : (l.map Prod.fst).Nodup) :
    List.Pairwise (fun e f => e.1 < f.1) (c7Buffer l) := by
  obtain ⟨hperm, hsorted⟩ := exchangeSort_perm_sorted (l.map (fun p => (p.1, ⟨[p.2]⟩)))
  have hmapkeys : ((l.map (fun p => (p.1, (⟨[p.2]⟩ : ValueList)))).map Prod.fst)
      = l.map Prod.fst := by
    rw [List.map_map]
    rfl
  have hkeys : ((c7Buffer l).map Prod.fst).Nodup := by
    have hpk : ((c7Buffer l).map Prod.fst).Perm
        ((l.map (fun p => (p.1, (⟨[p.2]⟩ : ValueList)))).map Prod.fst) :=
      List.Perm.map Prod.fst hperm
    rw [hmapkeys] at hpk
    exact (List.Perm.nodup_iff hpk).mpr hnd
  have hne : List.Pairwise (fun e f => (e.1 : Nat) ≠ f.1) (c7Buffer l) :=
    List.pairwise_map.mp hkeys
  have hand := List.Pairwise.and hsorted hne
  exact hand.imp (fun hab => Nat.lt_of_le_of_ne hab.1 hab.2)

/-- The number of pairs routed to the left half by the chosen split key is
exactly half the buffer. -/
theorem c7_left_filter_length (l : List (Nat × ItemPointer))
    (hnd : (l.map Prod.fst).Nodup) (hne : l ≠ []) :
    (l.filter (fun p => ltN p.1 (c7SplitKey l))).length = l.length / 2 := by
  have hlenB : (c7Buffer l).length = l.length := c7Buffer_length l
  have hpos : l.length / 2 < l.length :=
    Nat.div_lt_self (List.length_pos.mpr hne) (by omega)
  have hposB : (c7Buffer l).length / 2 < (c7Buffer l).length := by
    rw [hlenB]
    exact hpos
  have hsk : c7SplitKey l
      = ((c7Buffer l).getD ((c7Buffer l).length / 2) dfltEntry).1 := rfl
  have hcnt := countP_lt_sorted (c7Buffer l) ((c7Buffer l).length / 2) hposB
    (c7Buffer_sorted_strict l hnd)
  rw [← List.countP_eq_length_filter]
  have hmap : (l.map (fun p => (p.1, (⟨[p.2]⟩ : ValueList)))).countP
      (fun e => ltN e.1 (c7SplitKey l)) = l.countP (fun p => ltN p.1 (c7SplitKey l)) := by
    rw [List.countP_map]
    rfl
  have hpermc : (c7Buffer l).countP (fun e => ltN e.1 (c7SplitKey l))
      = (l.map (fun p => (p.1, (⟨[p.2]⟩ : ValueList)))).countP
          (fun e => ltN e.1 (c7SplitKey l)) :=
    List.Perm.countP_eq _ (c7Buffer_perm l)
  rw [← hmap, ← hpermc, hsk, hcnt, hlenB]

/- The shape of the left chain after the split, and split counting. -/

/-- The chain installed at the splitting PID, written as an explicit split
delta over the insert chain with its base sibling pointer rewired. -/
theorem c7LeftChain_eq (l : List (Nat × ItemPointer)) :
    c7LeftChain l = .split_node ⟨0, (c7Buffer l).length / 2, NULL_PID⟩ (l.length + 1)
      (c7SplitKey l) 3 (insChain l (.leaf_node ⟨0, 0, 2⟩ NULL_PID 3 [])) := by
  unfold c7LeftChain mkSplitDelta
  rw [insChain_GetLevel ⟨0, 0, 2⟩ NULL_PID NULL_PID [] rfl l]
  rw [deltaLen_insChain ⟨0, 0, 2⟩ NULL_PID NULL_PID [] l]
  show Node.split_node ⟨0, (c7Buffer l).length / 2, NULL_PID⟩ (l.length + 1)
    (c7SplitKey l) 3
    (setBaseNext (insChain l (.leaf_node ⟨0, 0, 2⟩ NULL_PID NULL_PID [])) 3) = _
  rw [setBaseNext_insChain]

/-- An insert chain over a leaf carries no split delta. -/
theorem chainSplitCount_insChain (m : Meta) (pl nl : PID)
    (slot : List (Nat × ValueList)) (l : List (Nat × ItemPointer)) :
    chainSplitCount (insChain l (.leaf_node m pl nl slot)) = 0 := by
  induction l with
  | nil => rfl
  | cons p rest ih =>
    show chainSplitCount (insChain rest (.leaf_node m pl nl slot)) = 0
    exact ih

/-- The final state carries exactly one split delta in the mapping table. -/
theorem c7FinalTree_splitCount (l : List (Nat × ItemPointer)) :
    tableSplitCount (c7FinalTree l) = 1 := by
  have hleft : chainSplitCount (c7LeftChain l) = 1 := by
    rw [c7LeftChain_eq]
    show chainSplitCount (insChain l (.leaf_node ⟨0, 0, 2⟩ NULL_PID 3 [])) + 1 = 1
    rw [chainSplitCount_insChain]
  simp only [tableSplitCount, c7FinalTree]
  show 0 + 0 + chainSplitCount (c7LeftChain l)
      + chainSplitCount (c7SepChain l) + chainSplitCount (c7RightLeaf l) = 1
  rw [hleft]
  show 0 + 0 + 1 + chainSplitCount (mkSeparatorDelta ltN (newInnerNode 1 1) _ _ 3) + 0 = 1
  rfl

/-- The final state holds exactly two leaf pages. -/
theorem c7FinalTree_leafCount (l : List (Nat × ItemPointer)) :
    tableLeafCount (c7FinalTree l) = 2 := by
  have hleft : isLeafChain (c7LeftChain l) = true := by
    rw [c7LeftChain_eq]
    show (match GetBaseNode (insChain l (.leaf_node ⟨0, 0, 2⟩ NULL_PID 3 [])) with
      | .leaf_node _ _ _ _ => true
      | _ => false) = true
    rw [getBaseNode_insChain]
  simp only [tableLeafCount, c7FinalTree]
  show 0 + 0 + (if isLeafChain (c7LeftChain l) then 1 else 0)
      + (if isLeafChain (c7SepChain l) then 1 else 0)
      + (if isLeafChain (c7RightLeaf l) then 1 else 0) = 2
  rw [hleft]
  show 0 + 0 + 1 + (if isLeafChain (mkSeparatorDelta ltN (newInnerNode 1 1) _ _ 3) then 1 else 0)
      + (if isLeafChain (c7RightLeaf l) then 1 else 0) = 2
  rfl

/-- The folded contents of the left half after the split: `floor(n/2)`
entries. -/
theorem c7LeftChain_foldedLength (l : List (Nat × ItemPointer))
    (hnd : (l.map Prod.fst).Nodup) (hne : l ≠ []) :
    (GetAllData ltN (c7LeftChain l)).length = l.length / 2 := by
  rw [c7LeftChain_eq]
  rw [getAllData_splitChain _ _ _ _ _ _ _ _ _ hnd]
  rw [exchangeSort_length, List.length_map]
  exact c7_left_filter_length l hnd hne

/-- The folded contents of the sibling leaf after the split: the upper
`n - floor(n/2)` entries. -/
theorem c7RightLeaf_foldedLength (l : List (Nat × ItemPointer)) :
    (GetAllData ltN (c7RightLeaf l)).length = l.length - l.length / 2 := by
  have hform : c7RightLeaf l
      = .leaf_node ⟨0, ((c7Buffer l).drop ((c7Buffer l).length / 2)).length, 2⟩ 1 NULL_PID
          ((c7Buffer l).drop ((c7Buffer l).length / 2)) := by
    unfold c7RightLeaf
    rw [List.length_drop]
  rw [hform, getAllData_leaf, exchangeSort_length, List.length_drop, c7Buffer_length]

/- Run lemmas: consecutive inserts of distinct keys. -/

/-- `InsertData` when the freshly built delta reaches `LEAF_SLOT_MAX`: the
delta is installed and the leaf split follows on the new state. -/
theorem insertData_leafRoot_full (lt : Nat → Nat → Bool) (M I fuel : Nat)
    (eqc : Nat → Nat → Bool) (t0 : Tree) (n : Node) (k : Nat) (v : ItemPointer)
    (h0 : ensureRoot t0 = leafRootTree n)
    (hleaf : n.IsLeaf = true)
    (hrange : isInRange lt n k = true)
    (hfull : (mkInsertDelta lt n k v).GetSize = M) :
    InsertData lt M I fuel eqc t0 (k, v)
      = SplitLeaf lt M I fuel (leafRootTree (mkInsertDelta lt n k v)) 1 := by
  have heq : ((mkInsertDelta lt n k v).GetSize == M) = true := by
    simpa using hfull
  unfold InsertData
  rw [h0]
  show (match (leafRootTree n).Get 1 with
    | none => none
    | some rn =>
      match descendLoop lt fuel (leafRootTree n) 1 rn k with
      | none => none
      | some (pid0, n0) =>
        match insertSiblingWalk lt fuel (leafRootTree n) pid0 n0 k with
        | none => none
        | some (pid, nn) =>
          let insert_delta := mkInsertDelta lt nn k v
          let t2 := tableSet (leafRootTree n) pid insert_delta
          if insert_delta.GetSize == M then SplitLeaf lt M I fuel t2 pid else some t2) = _
  simp only [get_leafRoot]
  simp only [descendLoop_leaf lt fuel _ 1 n k hleaf]
  simp only [insertSiblingWalk_inRange lt fuel _ 1 n k hrange]
  simp [heq, tableSet_leafRoot]

/-- Folding consecutive inserts of distinct keys while the leaf stays below
`LEAF_SLOT_MAX`: each insert prepends one delta to the root chain. -/
theorem insertRun_noSplit (M I fuel : Nat) (eqc : Nat → Nat → Bool) :
    ∀ (ps acc : List (Nat × ItemPointer)) (t0 : Tree),
      ensureRoot t0 = leafRootTree (insChain acc emptyLeafNode) →
      ((acc.map Prod.fst) ++ ps.map Prod.fst).Nodup →
      acc.length + ps.length < M →
      ps ≠ [] →
      (ps.map (fun p => Op.insert p.1 p.2)).foldlM
          (fun t op => applyOp ltN M I fuel eqc t op) t0
        = some (leafRootTree (insChain (ps.reverse ++ acc) emptyLeafNode)) := by
  intro ps
  induction ps with
  | nil => intro acc t0 _ _ _ hne; exact absurd rfl hne
  | cons p rest ih =>
    intro acc t0 h0 hnd hlen _
    obtain ⟨k, v⟩ := p
    have hkacc : k ∉ acc.map Prod.fst := by
      rw [List.nodup_append] at hnd
      intro hc
      exact hnd.2.2 hc (by simp)
    have hstep : applyOp ltN M I fuel eqc t0 (Op.insert k v)
        = some (leafRootTree (insChain ((k, v) :: acc) emptyLeafNode)) := by
      show InsertData ltN M I fuel eqc t0 (k, v) = _
      have hmk : mkInsertDelta ltN (insChain acc emptyLeafNode) k v
          = insChain ((k, v) :: acc) emptyLeafNode :=
        mkInsertDelta_insChain NULL_PID NULL_PID NULL_PID k v acc hkacc
      have hsz : (insChain ((k, v) :: acc) emptyLeafNode).GetSize = acc.length + 1 := by
        show (insChain ((k, v) :: acc)
          (Node.leaf_node ⟨0, 0, NULL_PID⟩ NULL_PID NULL_PID [])).GetSize = _
        rw [insChain_GetSize ⟨0, 0, NULL_PID⟩ NULL_PID NULL_PID [] rfl ((k, v) :: acc)]
        rfl
      have hfull : (mkInsertDelta ltN (insChain acc emptyLeafNode) k v).GetSize ≠ M := by
        rw [hmk, hsz]
        simp only [List.length_cons] at hlen
        omega
      rw [insertData_leafRoot ltN M I fuel eqc t0 (insChain acc emptyLeafNode) k v h0
        (insChain_IsLeaf 0 NULL_PID NULL_PID NULL_PID [] acc)
        (insChain_isInRange k ⟨0, 0, NULL_PID⟩ NULL_PID NULL_PID [] acc) hfull, hmk]
    cases rest with
    | nil =>
      simp only [List.map_cons, List.map_nil, List.foldlM_cons, List.foldlM_nil, hstep,
        Option.bind_eq_bind, Option.some_bind]
      simp
    | cons q rest2 =>
      have hnd2 : ((((k, v) :: acc).map Prod.fst) ++ (q :: rest2).map Prod.fst).Nodup := by
        have hperm : ((((k, v) :: acc).map Prod.fst) ++ (q :: rest2).map Prod.fst).Perm
            ((acc.map Prod.fst) ++ ((k, v) :: q :: rest2).map Prod.fst) := by
          simp only [List.map_cons]
          exact List.perm_middle.symm
        exact (List.Perm.nodup_iff hperm).mpr hnd
      have hlen2 : ((k, v) :: acc).length + (q :: rest2).length < M := by
        simp only [List.length_cons] at hlen ⊢
        omega
      have hrest := ih ((k, v) :: acc) (leafRootTree (insChain ((k, v) :: acc) emptyLeafNode))
        (ensureRoot_leafRoot _) hnd2 hlen2 (by simp)
      have hgoal : (((k, v) :: q :: rest2).map (fun p => Op.insert p.1 p.2)).foldlM
          (fun t op => applyOp ltN M I fuel eqc t op) t0
        = ((q :: rest2).map (fun p => Op.insert p.1 p.2)).foldlM
          (fun t op => applyOp ltN M I fuel eqc t op)
          (leafRootTree (insChain ((k, v) :: acc) emptyLeafNode)) := by
        rw [List.map_cons, List.foldlM_cons, hstep]
        rfl
      rw [hgoal, hrest]
      simp [List.append_assoc]

/-- Inserting exactly `LEAF_SLOT_MAX ≥ 2` pairs with distinct keys into a
fresh tree: the first `M - 1` inserts accumulate a chain and the final insert
hands the full chain to `SplitLeaf`. -/
theorem insertRun_split (M I fuel : Nat) (eqc : Nat → Nat → Bool)
    (ps : List (Nat × ItemPointer))
    (hnd : (ps.map Prod.fst).Nodup) (hlen : ps.length = M) (hM : 2 ≤ M) :
    runOps ltN M I fuel eqc (ps.map (fun p => Op.insert p.1 p.2))
      = SplitLeaf ltN M I fuel (leafRootTree (insChain ps.reverse emptyLeafNode)) 1 := by
  rcases List.eq_nil_or_concat ps with rfl | ⟨qs, q, rfl⟩
  · simp at hlen
    omega
  · simp only [List.concat_eq_append] at hnd hlen ⊢
    have hqlen : qs.length + 1 = M := by
      simpa using hlen
    have hqs_ne : qs ≠ [] := by
      intro hc
      rw [hc] at hqlen
      simp at hqlen
      omega
    have hndq : (([] : List (Nat × ItemPointer)).map Prod.fst ++ qs.map Prod.fst).Nodup := by
      rw [List.map_append] at hnd
      simpa using (List.nodup_append.mp hnd).1
    have hq_not : q.1 ∉ (qs.reverse).map Prod.fst := by
      rw [List.map_append, List.nodup_append] at hnd
      intro hc
      have hc2 : q.1 ∈ qs.map Prod.fst := by
        rw [List.map_reverse] at hc
        exact List.mem_reverse.mp hc
      exact hnd.2.2 hc2 (by simp)
    have hlenq : ([] : List (Nat × ItemPointer)).length + qs.length < M := by
      simp only [List.length_nil]
      omega
    have hfold := insertRun_noSplit M I fuel eqc qs [] freshTree
      (by rw [ensureRoot_fresh]; rfl) hndq hlenq hqs_ne
    unfold runOps
    rw [List.map_append, List.foldlM_append, hfold]
    simp only [List.append_nil, List.map_cons, List.map_nil, List.foldlM_cons,
      List.foldlM_nil, Option.bind_eq_bind, Option.some_bind]
    have hmk : mkInsertDelta ltN (insChain qs.reverse emptyLeafNode) q.1 q.2
        = insChain ((q.1, q.2) :: qs.reverse) emptyLeafNode :=
      mkInsertDelta_insChain NULL_PID NULL_PID NULL_PID q.1 q.2 qs.reverse hq_not
    have hsz : (insChain ((q.1, q.2) :: qs.reverse) emptyLeafNode).GetSize
        = qs.reverse.length + 1 := by
      show (insChain ((q.1, q.2) :: qs.reverse)
        (Node.leaf_node ⟨0, 0, NULL_PID⟩ NULL_PID NULL_PID [])).GetSize = _
      rw [insChain_GetSize ⟨0, 0, NULL_PID⟩ NULL_PID NULL_PID [] rfl
        ((q.1, q.2) :: qs.reverse)]
      rfl
    have hfull : (mkInsertDelta ltN (insChain qs.reverse emptyLeafNode) q.1 q.2).GetSize
        = M := by
      rw [hmk, hsz, List.length_reverse]
      omega
    have hstep := insertData_leafRoot_full ltN M I fuel eqc
      (leafRootTree (insChain qs.reverse emptyLeafNode))
      (insChain qs.reverse emptyLeafNode) q.1 q.2 (ensureRoot_leafRoot _)
      (insChain_IsLeaf 0 NULL_PID NULL_PID NULL_PID [] qs.reverse)
      (insChain_isInRange q.1 ⟨0, 0, NULL_PID⟩ NULL_PID NULL_PID [] qs.reverse) hfull
    show applyOp ltN M I fuel eqc (leafRootTree (insChain qs.reverse emptyLeafNode))
        (Op.insert q.1 q.2) >>= (fun t => some t) = _
    show InsertData ltN M I fuel eqc (leafRootTree (insChain qs.reverse emptyLeafNode))
        (q.1, q.2) >>= (fun t => some t) = _
    rw [hstep, hmk]
    have hrev : (qs ++ [q]).reverse = (q.1, q.2) :: qs.reverse := by
      simp
    rw [hrev]
    cases SplitLeaf ltN M I fuel
      (leafRootTree (insChain ((q.1, q.2) :: qs.reverse) emptyLeafNode)) 1 <;> rfl

/-- Evaluating `SplitLeaf` on the full insert chain at a single-leaf root:
root promotion to PID 2, sibling leaf at PID 3, split delta at PID 1,
separator at the new root. -/
theorem splitLeaf_insChain (M I fuel : Nat) (l : List (Nat × ItemPointer))
    (hnd : (l.map Prod.fst).Nodup) (hlen : l.length = M) (hM : 2 ≤ M) (hI : I ≠ 1) :
    SplitLeaf ltN M I fuel (leafRootTree (insChain l emptyLeafNode)) 1
      = some (c7FinalTree l) := by
  have hsbp : setBaseParent (insChain l emptyLeafNode) 2
      = insChain l (.leaf_node ⟨0, 0, 2⟩ NULL_PID NULL_PID []) := by
    show setBaseParent (insChain l (.leaf_node ⟨0, 0, NULL_PID⟩ NULL_PID NULL_PID [])) 2 = _
    rw [setBaseParent_insChain]
  have hsz : (insChain l (.leaf_node ⟨0, 0, 2⟩ NULL_PID NULL_PID [])).GetSize = M := by
    rw [insChain_GetSize ⟨0, 0, 2⟩ NULL_PID NULL_PID [] rfl l, hlen]
  have hbase : GetBaseNode (insChain l (.leaf_node ⟨0, 0, 2⟩ NULL_PID NULL_PID []))
      = .leaf_node ⟨0, 0, 2⟩ NULL_PID NULL_PID [] :=
    getBaseNode_insChain ⟨0, 0, 2⟩ NULL_PID NULL_PID [] l
  have hbuf : GetAllData ltN (insChain l (.leaf_node ⟨0, 0, 2⟩ NULL_PID NULL_PID []))
      = c7Buffer l := by
    unfold c7Buffer
    exact getAllData_insChain l 0 2 NULL_PID NULL_PID hnd
  unfold SplitLeaf
  show (if !((setBaseParent (insChain l emptyLeafNode) 2).GetSize == M)
    then some (c7PromotedTree l)
    else
      match GetBaseNode (setBaseParent (insChain l emptyLeafNode) 2) with
      | .leaf_node bm _ bnext _ =>
        let parent_pid := bm.parent
        let former_next_pid := bnext
        let former_ok : Option Unit :=
          if former_next_pid ≠ NULL_PID then
            match (c7PromotedTree l).Get former_next_pid with
            | none => none
            | some _ => some ()
          else some ()
        match former_ok with
        | none => none
        | some _ =>
          let buffer := GetAllData ltN (setBaseParent (insChain l emptyLeafNode) 2)
          let pos := buffer.length / 2
          let split_key := (buffer.getD pos dfltEntry).1
          let next_leaf_pid := (c7PromotedTree l).pid_counter + 1
          let next_leaf : Node :=
            .leaf_node ⟨0, buffer.length - buffer.length / 2, parent_pid⟩
              1 former_next_pid (buffer.drop (buffer.length / 2))
          let t1 := tableSet { c7PromotedTree l with pid_counter := next_leaf_pid }
            next_leaf_pid next_leaf
          let split_delta := mkSplitDelta (setBaseParent (insChain l emptyLeafNode) 2)
            split_key next_leaf_pid (buffer.length / 2)
          let t2 := tableSet t1 1 split_delta
          let t3 := tableSet t2 1 (setBaseNext split_delta next_leaf_pid)
          let t4 :=
            if former_next_pid ≠ NULL_PID then
              match t3.Get former_next_pid with
              | none => t3
              | some fn => tableSet t3 former_next_pid (setBasePrev fn next_leaf_pid)
            else t3
          match t4.Get parent_pid with
          | none => none
          | some parent =>
            let right_key := FindUpperKeyChain ltN parent split_key split_key
            let sep := mkSeparatorDelta ltN parent split_key right_key next_leaf_pid
            let t5 := tableSet t4 parent_pid sep
            if sep.GetSize == I then SplitInner ltN I fuel t5 parent_pid
            else some t5
      | _ => none) = some (c7FinalTree l)
  rw [hsbp, hsz]
  simp only [beq_self_eq_true, Bool.not_true, Bool.false_eq_true, if_false, hbase, hbuf]
  simp only [NULL_PID, ne_eq, eq_self_iff_true, not_true, if_false, c7PromotedTree,
    tableSet, Tree.Get]
  simp
  rw [if_neg (fun hc => hI (hc.symm))]
  refine congrArg some ?_
  unfold c7FinalTree c7SepChain c7LeftChain c7RightLeaf c7SplitKey
  congr 1
  funext p
  by_cases h3 : p = 3
  · simp [h3, List.getD_eq_getElem?_getD, NULL_PID]
  · by_cases h2 : p = 2
    · simp [h2, h3, List.getD_eq_getElem?_getD, NULL_PID]
    · by_cases h1 : p = 1
      · simp [h1, h2, h3, List.getD_eq_getElem?_getD, NULL_PID]
      · simp [h1, h2, h3]

/-- C7: inserting exactly `LEAF_SLOT_MAX = M` pairwise-distinct keys into a
fresh tree (with even `M ≥ 2` and `INNER_SLOT_MAX ≠ 1`, so the separator does
not cascade) performs exactly one leaf split: the run succeeds and ends in a
state with exactly one split delta and exactly two leaf pages; the folded
contents of the splitting chain and of the new sibling leaf each hold `M / 2`
keys; and the chain at the split PID carries a split delta whose key is the
key at position `size / 2` of the folded sorted buffer. -/
theorem c7_leaf_split_halves (M I fuel : Nat) (eqc : Nat → Nat → Bool)
    (ps : List (Nat × ItemPointer))
    (hM : 2 ≤ M) (heven : M % 2 = 0) (hI : I ≠ 1)
    (hlen : ps.length = M) (hnd : (ps.map Prod.fst).Nodup) :
    runOps ltN M I fuel eqc (ps.map (fun p => Op.insert p.1 p.2))
        = some (c7FinalTree ps.reverse) ∧
    tableSplitCount (c7FinalTree ps.reverse) = 1 ∧
    tableLeafCount (c7FinalTree ps.reverse) = 2 ∧
    (GetAllData ltN (c7LeftChain ps.reverse)).length = M / 2 ∧
    (GetAllData ltN (c7RightLeaf ps.reverse)).length = M / 2 ∧
    (c7FinalTree ps.reverse).Get 1
      = some (.split_node ⟨0, M / 2, NULL_PID⟩ (M + 1) (c7SplitKey ps.reverse) 3
          (insChain ps.reverse (.leaf_node ⟨0, 0, 2⟩ NULL_PID 3 []))) ∧
    c7SplitKey ps.reverse
      = ((c7Buffer ps.reverse).getD ((c7Buffer ps.reverse).length / 2) dfltEntry).1 := by
  have hndrev : (ps.reverse.map Prod.fst).Nodup := by
    rw [List.map_reverse]
    exact List.nodup_reverse.mpr hnd
  have hlenrev : ps.reverse.length = M := by
    rw [List.length_reverse]
    exact hlen
  have hnerev : ps.reverse ≠ [] := by
    intro hc
    rw [hc] at hlenrev
    simp at hlenrev
    omega
  have hbl : (c7Buffer ps.reverse).length = M := by
    rw [c7Buffer_length, hlenrev]
  refine ⟨?_, c7FinalTree_splitCount ps.reverse, c7FinalTree_leafCount ps.reverse,
    ?_, ?_, ?_, rfl⟩
  · rw [insertRun_split M I fuel eqc ps hnd hlen hM]
    exact splitLeaf_insChain M I fuel ps.reverse hndrev hlenrev hM hI
  · rw [c7LeftChain_foldedLength ps.reverse hndrev hnerev, hlenrev]
  · rw [c7RightLeaf_foldedLength ps.reverse, hlenrev]
    omega
  · have hget : (c7FinalTree ps.reverse).Get 1 = some (c7LeftChain ps.reverse) := by
      simp [c7FinalTree, Tree.Get]
    rw [hget, c7LeftChain_eq, hbl, hlenrev]

/-- Witness: eight inserts of keys 1..8 with `LEAF_SLOT_MAX = INNER_SLOT_MAX
= 8` satisfy the hypotheses and the split-boundary conclusions. -/
theorem c7_leaf_split_halves_witness :
    (2 ≤ 8 ∧ 8 % 2 = 0 ∧ (8 : Nat) ≠ 1 ∧ c7ps.length = 8
      ∧ (c7ps.map Prod.fst).Nodup) ∧
    (runOps ltN 8 8 9 (fun _ _ => true) (c7ps.map (fun p => Op.insert p.1 p.2))
        = some (c7FinalTree c7ps.reverse) ∧
      tableSplitCount (c7FinalTree c7ps.reverse) = 1 ∧
      tableLeafCount (c7FinalTree c7ps.reverse) = 2 ∧
      (GetAllData ltN (c7LeftChain c7ps.reverse)).length = 8 / 2 ∧
      (GetAllData ltN (c7RightLeaf c7ps.reverse)).length = 8 / 2 ∧
      (c7FinalTree c7ps.reverse).Get 1
        = some (.split_node ⟨0, 8 / 2, NULL_PID⟩ (8 + 1) (c7SplitKey c7ps.reverse) 3
            (insChain c7ps.reverse (.leaf_node ⟨0, 0, 2⟩ NULL_PID 3 []))) ∧
      c7SplitKey c7ps.reverse
        = ((c7Buffer c7ps.reverse).getD ((c7Buffer c7ps.reverse).length / 2)
            dfltEntry).1) :=
  ⟨⟨by decide, by decide, by decide, by decide, by decide⟩,
    c7_leaf_split_halves 8 8 9 (fun _ _ => true) c7ps (by decide) (by decide)
      (by decide) (by decide) (by decide)⟩

set_option maxHeartbeats 4000000 in
/-- With an odd `LEAF_SLOT_MAX = 3`, inserting keys 1, 2, 3 splits into
siblings holding 1 and 2 keys: the new right sibling holds 2 keys, not
`LEAF_SLOT_MAX / 2 = 1` as the claim states for both siblings. -/
theorem c7_counterexample :
    (runOps ltN 3 8 4 (fun _ _ => true)
        ([(1, ⟨1, 1⟩), (2, ⟨2, 2⟩), (3, ⟨3, 3⟩)].map
          (fun p => Op.insert p.1 p.2))).bind
        (fun t => foldedSizesAt ltN t 1 3) = some (1, 2) ∧
    ¬((2 : Nat) = 3 / 2) := by
  decide

end BwTree
